import Mathlib

/-!
# Numerical integration: `internal/integrate`

A shallow embedding of the two integrators of `internal/integrate/integrate.go`
(`MonteCarlo`, with its helper `randomVector`, and `Quadrature`, with its recursive
closure `calculate`), of the integrand `f` and of the instrumentation wrapper
`withInvokeCounter` of `cmd/integrate/main.go`.

Modelling decisions.

* Numbers.  The Go code computes in `float64`.  The embedding is generic in the number
  type `α`: it only uses `0`, `1`, `+`, `-`, `*`, `/` and the three operations of
  `Float64Ops` (`0.5`, `float64(i)` and `int(math.Round(x))`).  Structural results
  (errors, invocation counts, the shape of the returned expression) are proved for every
  such `α`, in the operation order of the source, so they do not depend on any law of
  arithmetic.  Two instances are provided: exact rational arithmetic `ℚ`, and `F64`, the
  finite values of IEEE-754 binary64 with round-to-nearest-even applied after every
  single operation (no fused multiply-add, no infinities or NaN).
* Slices are lists; an index expression `s[k]` with `k` out of range is the fault
  `Fault.indexOutOfRange` (a Go run-time panic).
* The integrand is a Go closure, which may carry state (the invocation counter of
  `withInvokeCounter` is such a state): `Integrand α σ` maps a point and the closure's
  state to a value and the new state.
* `rand.Float64()` is a stream `r : Nat → α` together with the number of draws made so
  far.
* `calculate` is recursive through the shared variable `k`; the embedding gives it a
  fuel argument, and `Quadrature` supplies `len(left) + 1`, which is shown to suffice
  (`Quadrature_eq_trapezoid`).
-/

namespace Integrate

/-- The package-level error values (`ErrWrongDimensions = errors.New("wrong dimensions")`). -/
inductive GoError where
  | ErrWrongDimensions
  deriving DecidableEq, Repr

/-- Abnormal termination of the embedded code. -/
inductive Fault where
  | indexOutOfRange
  | outOfFuel
  | invariantViolated
  deriving DecidableEq, Repr

deriving instance DecidableEq for Except

/-- The `float64` operations used by the package besides `+ - * /`:
the constant `0.5`, the conversion `float64(i)` and `int(math.Round(x))`. -/
class Float64Ops (α : Type) where
  half : α
  ofInt : Int → α
  roundToInt : α → Int

/-- A Go `func([]float64) float64` closure with captured state `σ`. -/
abbrev Integrand (α σ : Type) := List α → σ → α × σ

/-- A closure without state. -/
def pureIntegrand {α : Type} (g : List α → α) : Integrand α Unit :=
  fun x u => (g x, u)

/-- Go `withInvokeCounter` (main.go): `counter.Add(1); return f(args)`. -/
def withInvokeCounter {α σ : Type} (f : Integrand α σ) : Integrand α (Int × σ) :=
  fun args s =>
    let counter := s.1 + 1
    let (v, env) := f args s.2
    (v, (counter, env))

/-- An integrand wrapper that records the points it is invoked at, in order. -/
def withTrace {α σ : Type} (f : Integrand α σ) : Integrand α (List (List α) × σ) :=
  fun args s =>
    let (v, env) := f args s.2
    (v, (s.1 ++ [args], env))

/-- Go `f` (main.go): `for _, value := range args { sum += value * value }`. -/
def sumSquares {α : Type} [Zero α] [Add α] [Mul α] (args : List α) : α :=
  args.foldl (fun sum value => sum + value * value) 0

section Generic

variable {α σ : Type}

/-- Index expression `s[k]`. -/
def index (s : List α) (k : Int) : Except Fault α :=
  if 0 ≤ k then
    match s[k.toNat]? with
    | some v => .ok v
    | none => .error .indexOutOfRange
  else .error .indexOutOfRange

/-- Assignment `s[k] = v`. -/
def assign (s : List α) (k : Int) (v : α) : Except Fault (List α) :=
  if 0 ≤ k ∧ k.toNat < s.length then .ok (s.set k.toNat v) else .error .indexOutOfRange

/-- Go `make([]float64, n)`. -/
def make [Zero α] (n : Nat) : List α := List.replicate n 0

/-- Go `copy(dst, src)`: the first `min(len(dst), len(src))` elements are overwritten. -/
def copy (dst src : List α) : List α :=
  src.take dst.length ++ dst.drop src.length

/-- A counting loop `for i := start; ...; i++ { body }` whose body leaves `i` and the
bound untouched: `trips` iterations, the loop variable starting at `start`. -/
def forLoop {β : Type} (body : Int → β → Except Fault β) : Nat → Int → β → Except Fault β
  | 0, _, acc => .ok acc
  | trips + 1, i, acc => do
    let acc ← body i acc
    forLoop body trips (i + 1) acc

/-! ### MonteCarlo -/

/-- The state threaded through `MonteCarlo`: the number of `rand.Float64()` draws made
so far and the integrand's captured state. -/
structure Sampler (σ : Type) where
  draws : Nat
  env : σ
  deriving DecidableEq

variable [Zero α] [One α] [Add α] [Sub α] [Mul α] [Div α] [Float64Ops α]

/-- Go `randomVector(a, b, v)`:
`for i := 0; i < n; i++ { v[i] = a[i] + rand.Float64()*(b[i]-a[i]) }`. -/
def randomVector (r : Nat → α) (a b : List α) (v : List α) (draws : Nat) :
    Except Fault (List α × Nat) :=
  let n := a.length
  forLoop (fun i (acc : List α × Nat) => do
      let ai ← index a i
      let u := r acc.2
      let bi ← index b i
      let v ← assign acc.1 i (ai + u * (bi - ai))
      pure (v, acc.2 + 1))
    n 0 (v, draws)

/-- Go `MonteCarlo(f, left, right, points)`.  The result is the returned pair
`(float64, error)` together with the final sampler state. -/
def MonteCarlo (f : Integrand α σ) (left right : List α) (points : Int)
    (r : Nat → α) (s : Sampler σ) :
    Except Fault ((α × Option GoError) × Sampler σ) :=
  let n := left.length
  if n ≠ right.length then
    .ok (((0 : α), some .ErrWrongDimensions), s)
  else do
    let x : List α := make n
    let sum : α := 0
    let volume : α := 1
    let volume ← forLoop (fun i (volume : α) => do
        let ri ← index right i
        let li ← index left i
        pure (volume * (ri - li)))
      n 0 volume
    let (_, sum, s) ← forLoop (fun _ (acc : List α × α × Sampler σ) => do
        let (x, draws) ← randomVector r left right acc.1 acc.2.2.draws
        let (v, env) := f x acc.2.2.env
        pure (x, acc.2.1 + v, { draws := draws, env := env }))
      points.toNat 0 (x, sum, s)
    pure ((sum * volume / Float64Ops.ofInt points, none), s)

/-! ### Quadrature -/

/-- The variables captured by the closure `calculate`: the shared index `k`, the shared
point buffer `x`, and the integrand's state. -/
structure Frame (α σ : Type) where
  k : Int
  x : List α
  env : σ

/-- The statement `x[k] = left[k] + float64(i)*h[k]`. -/
def setInterior (left h : List α) (i : Int) (c : Frame α σ) : Except Fault (Frame α σ) := do
  let lk ← index left c.k
  let hk ← index h c.k
  let x ← assign c.x c.k (lk + Float64Ops.ofInt i * hk)
  pure { c with x := x }

/-- The statement `x[k] = right[k]` (also used for `x[k] = left[k]`). -/
def setBound (bound : List α) (c : Frame α σ) : Except Fault (Frame α σ) := do
  let bk ← index bound c.k
  let x ← assign c.x c.k bk
  pure { c with x := x }

/-- The call `f(x)`. -/
def invoke (f : Integrand α σ) (c : Frame α σ) : Except Fault (α × Frame α σ) :=
  let (v, env) := f c.x c.env
  pure (v, { c with env := env })

/-- The closure `calculate` of `Quadrature`. -/
def calculate (f : Integrand α σ) (left right h : List α) (n : Int) :
    Nat → Frame α σ → Except Fault (α × Frame α σ)
  | 0, _ => .error .outOfFuel
  | fuel + 1, c => do
    let sum : α := 0
    let rk ← index right c.k
    let lk ← index left c.k
    let w := rk - lk
    let hk ← index h c.k
    let count : Int := Float64Ops.roundToInt (w / hk)
    let (sum, c) ←
      (if c.k < n - 1 then (do
        let c := { c with k := c.k + 1 }
        let (v, c) ← calculate f left right h n fuel c
        let sum := sum + Float64Ops.half * v
        let (sum, c) ← forLoop (fun i (acc : α × Frame α σ) => do
            let c ← setInterior left h i acc.2
            let c := { c with k := c.k + 1 }
            let (v, c) ← calculate f left right h n fuel c
            pure (acc.1 + v, c))
          (count - 1).toNat 1 (sum, c)
        let c ← setBound right c
        let c := { c with k := c.k + 1 }
        let (v, c) ← calculate f left right h n fuel c
        pure (sum + Float64Ops.half * v, c))
      else (do
        let (v, c) ← invoke f c
        let sum := sum + Float64Ops.half * v
        let (sum, c) ← forLoop (fun i (acc : α × Frame α σ) => do
            let c ← setInterior left h i acc.2
            let (v, c) ← invoke f c
            pure (acc.1 + v, c))
          (count - 1).toNat 1 (sum, c)
        let c ← setBound right c
        let (v, c) ← invoke f c
        pure (sum + Float64Ops.half * v, c)))
    let hk ← index h c.k
    let sum := sum * hk
    let c ← setBound left c
    pure (sum, { c with k := c.k - 1 })

/-- Go `Quadrature(f, left, right, h)`.  The result is the returned pair
`(float64, error)` together with the integrand's final state. -/
def Quadrature (f : Integrand α σ) (left right h : List α) (env : σ) :
    Except Fault ((α × Option GoError) × σ) :=
  let n := left.length
  if n ≠ right.length ∨ n ≠ h.length then
    .ok (((0 : α), some .ErrWrongDimensions), env)
  else do
    let k : Int := 0
    let x : List α := copy (make n) left
    let (v, c) ← calculate f left right h n (n + 1) { k := k, x := x, env := env }
    pure ((v, none), c.env)

end Generic

/-! ### Exact arithmetic -/

/-- Go `int(math.Round(x))` on exact rationals: nearest integer, halves away from zero
(`roundHalfAway_spec`). -/
def roundHalfAway (q : ℚ) : Int :=
  if 0 ≤ q then Rat.floor (q + 1 / 2) else -Rat.floor (-q + 1 / 2)

instance : Float64Ops ℚ where
  half := 1 / 2
  ofInt := fun i => (i : ℚ)
  roundToInt := roundHalfAway

/-! ### IEEE-754 binary64 arithmetic (finite values) -/

/-- The least `s` (counting up from the second argument) with `n < 2 ^ (2 ^ s)`; the first
argument bounds the number of attempts. -/
def searchSteps : Nat → Nat → Nat → Nat
  | 0, s, _ => s
  | fuel + 1, s, n => if n < 2 ^ (2 ^ s) then s else searchSteps fuel (s + 1) n

/-- Binary search for the largest `t` in `[acc, acc + 2 ^ steps)` with `2 ^ t ≤ n`. -/
def log2Search : Nat → Nat → Nat → Nat
  | 0, _, acc => acc
  | s + 1, n, acc =>
    if 2 ^ (acc + 2 ^ s) ≤ n then log2Search s n (acc + 2 ^ s) else log2Search s n acc

/-- The integer part of the binary logarithm of `n ≥ 1`, by binary search; the two
frequent ranges `n < 2^64` and `2^64 ≤ n < 2^128` are searched directly. -/
def floorLog2 (n : Nat) : Nat :=
  if n < 2 ^ 64 then log2Search 6 n 0
  else if n < 2 ^ 128 then log2Search 6 n 64
  else log2Search (searchSteps n 8 n) n 0

/-- The exponent of the binade of a nonzero rational `q = num / den`:
`2 ^ ilog2 q ≤ |q| < 2 ^ (ilog2 q + 1)`.  The difference `g` of the binary logarithms of
`|num|` and `den` is either the exponent or one too large. -/
def ilog2 (q : ℚ) : Int :=
  let g : Int := (floorLog2 q.num.natAbs : Int) - (floorLog2 q.den : Int)
  if 0 ≤ g then
    (if 2 ^ g.toNat * q.den ≤ q.num.natAbs then g else g - 1)
  else
    (if q.den ≤ q.num.natAbs * 2 ^ (-g).toNat then g else g - 1)

/-- The integer nearest to `N / D` (for `D > 0`), ties to the even one. -/
def roundDivEven (N : Int) (D : Nat) : Int :=
  let fl := N / (D : Int)
  let rem := N % (D : Int)
  if 2 * rem < D then fl
  else if (D : Int) < 2 * rem then fl + 1
  else if fl % 2 = 0 then fl else fl + 1

/-- Rounding of an exact result to binary64 (53-bit significand, least exponent `-1074`,
round to nearest, ties to even): with `e` the exponent of the last place, the result is
`m * 2 ^ e` where `m` is the integer nearest to `q / 2 ^ e`.  Overflow to infinity is not
modelled. -/
def roundF64 (q : ℚ) : ℚ :=
  if q = 0 then 0
  else
    let e := max (ilog2 q - 52) (-1074)
    if 0 ≤ e then
      ((roundDivEven q.num (q.den * 2 ^ e.toNat) * ((2 ^ e.toNat : Nat) : Int) : Int) : ℚ)
    else
      Rat.divInt (roundDivEven (q.num * ((2 ^ (-e).toNat : Nat) : Int)) q.den)
        ((2 ^ (-e).toNat : Nat) : Int)

/-- A finite `float64`, given by its exact value.  Every operation is the exact operation
followed by `roundF64` (characterised by `roundF64_spec`); infinities, NaN, the sign of
zero and division by zero are not modelled. -/
structure F64 where
  val : ℚ
  deriving DecidableEq

/-- The `float64` denoted by a decimal constant such as `0.1`. -/
def F64.lit (q : ℚ) : F64 := ⟨roundF64 q⟩

instance : Zero F64 := ⟨⟨0⟩⟩
instance : One F64 := ⟨⟨1⟩⟩
instance : Add F64 := ⟨fun a b => ⟨roundF64 (a.val + b.val)⟩⟩
instance : Sub F64 := ⟨fun a b => ⟨roundF64 (a.val - b.val)⟩⟩
instance : Mul F64 := ⟨fun a b => ⟨roundF64 (a.val * b.val)⟩⟩
instance : Div F64 := ⟨fun a b => ⟨roundF64 (a.val / b.val)⟩⟩

instance : Float64Ops F64 where
  half := ⟨1 / 2⟩
  ofInt := fun i => ⟨roundF64 (i : ℚ)⟩
  roundToInt := fun a => roundHalfAway a.val

/-! ### Exact arithmetic with undefined results -/

/-- A real number of exact arithmetic, or `none` for an undefined result.  A quotient by
zero is undefined (in `float64` it is an infinity or NaN), and every operation on an
undefined operand is undefined. -/
structure Checked where
  val : Option ℚ
  deriving DecidableEq

/-- A binary operation on `Checked`, undefined as soon as an operand is. -/
def Checked.lift (op : ℚ → ℚ → ℚ) (a b : Checked) : Checked :=
  match a.val, b.val with
  | some x, some y => ⟨some (op x y)⟩
  | _, _ => ⟨none⟩

/-- The quotient on `Checked`: undefined when the divisor is zero. -/
def Checked.div (a b : Checked) : Checked :=
  match a.val, b.val with
  | some x, some y => if y = 0 then ⟨none⟩ else ⟨some (x / y)⟩
  | _, _ => ⟨none⟩

instance : Zero Checked := ⟨⟨some 0⟩⟩
instance : One Checked := ⟨⟨some 1⟩⟩
instance : Add Checked := ⟨Checked.lift (· + ·)⟩
instance : Sub Checked := ⟨Checked.lift (· - ·)⟩
instance : Mul Checked := ⟨Checked.lift (· * ·)⟩
instance : Div Checked := ⟨Checked.div⟩

instance : Float64Ops Checked where
  half := ⟨some (1 / 2)⟩
  ofInt := fun i => ⟨some (i : ℚ)⟩
  roundToInt := fun a =>
    match a.val with
    | some x => roundHalfAway x
    | none => 0

/-! ### Reference definitions -/

section Reference

variable {α σ : Type}

/-- The values taken by the loop variable of `forLoop`: `start, start + 1, …`. -/
def loopIndices : Nat → Int → List Int
  | 0, _ => []
  | trips + 1, i => i :: loopIndices trips (i + 1)

/-- The interior node indices `1, …, count - 1` of one dimension. -/
def interior (count : Int) : List Int := loopIndices (count - 1).toNat 1

variable [Zero α] [One α] [Add α] [Sub α] [Mul α] [Div α] [Float64Ops α]

/-- The interval count of dimension `k`: `int(math.Round((right[k]-left[k]) / h[k]))`. -/
def countAt (left right h : List α) (k : Nat) : Int :=
  Float64Ops.roundToInt ((right.getD k 0 - left.getD k 0) / h.getD k 0)

/-- The accumulation of one trapezoid reduction along coordinate `k` on fresh points: the
node values are given by `sub`, evaluated at the left bound first, then at the interior
nodes in increasing order, then at the right bound; the sum is accumulated in the order
of the source, `((0 + 0.5*v₀) + v₁ + …) + 0.5*vₗ`. -/
def sweepAcc (sub : Integrand α σ) (lk rk hk : α) (count : Int) (k : Nat) : Integrand α σ :=
  fun x env =>
    let r0 := sub (x.set k lk) env
    let acc := (interior count).foldl
      (fun (acc : α × σ) i =>
        let ri := sub (x.set k (lk + Float64Ops.ofInt i * hk)) acc.2
        (acc.1 + ri.1, ri.2))
      (0 + Float64Ops.half * r0.1, r0.2)
    let r1 := sub (x.set k rk) acc.2
    (acc.1 + Float64Ops.half * r1.1, r1.2)

/-- One trapezoid reduction along coordinate `k`: the accumulated sum times `h[k]`. -/
def sweep (sub : Integrand α σ) (lk rk hk : α) (count : Int) (k : Nat) : Integrand α σ :=
  fun x env =>
    let s := sweepAcc sub lk rk hk count k x env
    (s.1 * hk, s.2)

/-- The recursive composite trapezoid over the coordinates `k, …, k + d - 1`, without
shared mutable state: `trapezoid f left right h d k x` reduces `d` coordinates of the
point `x`, starting at coordinate `k`. -/
def trapezoid (f : Integrand α σ) (left right h : List α) : Nat → Nat → Integrand α σ
  | 0, _ => f
  | d + 1, k =>
    sweep (trapezoid f left right h d (k + 1))
      (left.getD k 0) (right.getD k 0) (h.getD k 0) (countAt left right h k) k

/-- The number of nodes of dimension `k`: both bounds and the `count - 1` interior nodes,
never fewer than two. -/
def nodeCount (left right h : List α) (k : Nat) : Int :=
  max (countAt left right h k) 1 + 1

/-- The number of integrand evaluations of the recursion over `d` coordinates starting at
coordinate `k`. -/
def invocations (left right h : List α) : Nat → Nat → Int
  | 0, _ => 1
  | d + 1, k => nodeCount left right h k * invocations left right h d (k + 1)

/-- The sample point built from the draws `r d, r (d+1), …, r (d+n-1)`:
coordinate `i` is `left[i] + r (d+i) * (right[i] - left[i])`. -/
def samplePoint (r : Nat → α) (left right : List α) (d : Nat) : List α :=
  (List.range left.length).map
    (fun i => left.getD i 0 + r (d + i) * (right.getD i 0 - left.getD i 0))

/-- The domain volume, accumulated as in the source: `1 * w₀ * w₁ * …` in index order. -/
def volumeOf (left right : List α) : α :=
  (List.range left.length).foldl (fun v i => v * (right.getD i 0 - left.getD i 0)) 1

/-- The sum of the integrand over the first `points` sample points, accumulated from `0`
in sampling order (the integrand's state is threaded through); sample `j` uses the draws
`d + j*n, …, d + j*n + n - 1`. -/
def sampleSum (f : Integrand α σ) (r : Nat → α) (left right : List α) (points d : Nat)
    (env : σ) : α × σ :=
  (List.range points).foldl
    (fun (acc : α × σ) j =>
      let rj := f (samplePoint r left right (d + j * left.length)) acc.2
      (acc.1 + rj.1, rj.2))
    (0, env)

/-- The body of the interior-node loop of `calculate`, the evaluation of a node's value
(`k++; calculate()` in one branch, `f(x)` in the other) being the parameter `E`. -/
def levelStep (E : Frame α σ → Except Fault (α × Frame α σ)) (left h : List α)
    (i : Int) (acc : α × Frame α σ) : Except Fault (α × Frame α σ) := do
  let c ← setInterior left h i acc.2
  let (v, c) ← E c
  pure (acc.1 + v, c)

/-- The common shape of the two branches of `calculate`. -/
def level (E : Frame α σ → Except Fault (α × Frame α σ)) (left right h : List α)
    (count : Int) (c : Frame α σ) : Except Fault (α × Frame α σ) := do
  let (v, c) ← E c
  let sum := (0 : α) + Float64Ops.half * v
  let (sum, c) ← forLoop (levelStep E left h) (count - 1).toNat 1 (sum, c)
  let c ← setBound right c
  let (v, c) ← E c
  pure (sum + Float64Ops.half * v, c)

/-- The node list of dimension `k`: the left bound, the interior nodes
`left[k] + i*h[k]` for `i = 1, …, count_k - 1`, and the right bound. -/
def nodes (left right h : List α) (k : Nat) : List α :=
  left.getD k 0 ::
    ((interior (countAt left right h k)).map
        (fun i => left.getD k 0 + Float64Ops.ofInt i * h.getD k 0)
      ++ [right.getD k 0])

/-- The Cartesian product of the node lists of the dimensions `k, …, k + d - 1`, in
lexicographic order, dimension `k` most significant and dimension `k + d - 1` varying
fastest. -/
def grid (left right h : List α) : Nat → Nat → List (List α)
  | 0, _ => [[]]
  | d + 1, k =>
    (nodes left right h k).flatMap (fun v => (grid left right h d (k + 1)).map (fun p => v :: p))

/-- The condition on the captured variables when `calculate` is entered: the shared
index `k` is in range and the buffer agrees with `left` from coordinate `k` on. -/
def entryInvariant (left : List α) (c : Frame α σ) : Prop :=
  0 ≤ c.k ∧ c.k ≤ (left.length : Int) - 1 ∧ c.x.length = left.length
    ∧ c.x.drop c.k.toNat = left.drop c.k.toNat

instance [DecidableEq α] (left : List α) (c : Frame α σ) :
    Decidable (entryInvariant left c) := by
  unfold entryInvariant
  infer_instance

/-- The condition relating the captured variables when an invocation of `calculate`
entered at `c` returns at `c'`: the shared index is one less, the buffer is as it was. -/
def exitInvariant (c c' : Frame α σ) : Prop :=
  c'.k = c.k - 1 ∧ c'.x = c.x

instance [DecidableEq α] (c c' : Frame α σ) : Decidable (exitInvariant c c') := by
  unfold exitInvariant
  infer_instance

/-- The closure `calculate` (in the form given by `calculate_succ`) with two run-time
assertions: `entryInvariant` on every entry, recursive ones included, and `exitInvariant`
on every return.  A failed assertion is the fault `invariantViolated`. -/
def calculateAsserting [DecidableEq α] (f : Integrand α σ) (left right h : List α) (n : Int) :
    Nat → Frame α σ → Except Fault (α × Frame α σ)
  | 0, _ => .error .outOfFuel
  | fuel + 1, c =>
    if entryInvariant left c then do
      let rk ← index right c.k
      let lk ← index left c.k
      let hk ← index h c.k
      let r ← level
        (if c.k < n - 1 then
          (fun c => calculateAsserting f left right h n fuel { c with k := c.k + 1 })
          else invoke f)
        left right h (Float64Ops.roundToInt ((rk - lk) / hk)) c
      let hk ← index h r.2.k
      let c' ← setBound left r.2
      let c' := { c' with k := c'.k - 1 }
      if exitInvariant c c' then pure (r.1 * hk, c') else .error .invariantViolated
    else .error .invariantViolated

/-- The pure recursive composite trapezoid of the specification, in exact arithmetic:
`trapezoidSpec g left right h d k` is `T_k` for a domain of dimension `k + d`, that is
`T_n(x) = g(x)` and
`T_k(x) = h[k] * (0.5*T_(k+1)(x[k:=left[k]]) + Σ_(i=1..count_k-1) T_(k+1)(x[k:=left[k]+i*h[k]])
  + 0.5*T_(k+1)(x[k:=right[k]]))` with `count_k = round((right[k]-left[k])/h[k])`. -/
def trapezoidSpec (g : List ℚ → ℚ) (left right h : List ℚ) : Nat → Nat → List ℚ → ℚ
  | 0, _, x => g x
  | d + 1, k, x =>
    let count : Int := roundHalfAway ((right.getD k 0 - left.getD k 0) / h.getD k 0)
    h.getD k 0 *
      (1 / 2 * trapezoidSpec g left right h d (k + 1) (x.set k (left.getD k 0))
        + (Finset.Ico 1 count).sum (fun i =>
            trapezoidSpec g left right h d (k + 1)
              (x.set k (left.getD k 0 + (i : ℚ) * h.getD k 0)))
        + 1 / 2 * trapezoidSpec g left right h d (k + 1) (x.set k (right.getD k 0)))

end Reference

/-! ### The arithmetic models -/

section Arithmetic

theorem log2Search_spec : ∀ (s n acc : Nat), 2 ^ acc ≤ n → n < 2 ^ (acc + 2 ^ s) →
    2 ^ log2Search s n acc ≤ n ∧ n < 2 ^ (log2Search s n acc + 1) := by
  intro s
  induction s with
  | zero =>
    intro n acc h1 h2
    exact ⟨h1, by simpa using h2⟩
  | succ s ih =>
    intro n acc h1 h2
    rw [log2Search]
    split
    · rename_i hc
      apply ih _ _ hc
      have : acc + 2 ^ s + 2 ^ s = acc + 2 ^ (s + 1) := by rw [pow_succ]; omega
      rw [this]
      exact h2
    · rename_i hc
      exact ih _ _ h1 (by omega)

theorem searchSteps_spec : ∀ (fuel s n : Nat), n < 2 ^ (2 ^ (s + fuel)) →
    n < 2 ^ (2 ^ searchSteps fuel s n) := by
  intro fuel
  induction fuel with
  | zero => intro s n h; simpa [searchSteps] using h
  | succ fuel ih =>
    intro s n h
    rw [searchSteps]
    split
    · assumption
    · apply ih
      have : s + 1 + fuel = s + (fuel + 1) := by omega
      rw [this]
      exact h

theorem floorLog2_spec (n : Nat) (hn : 1 ≤ n) :
    2 ^ floorLog2 n ≤ n ∧ n < 2 ^ (floorLog2 n + 1) := by
  rw [floorLog2]
  split
  · rename_i h
    exact log2Search_spec 6 n 0 (by simpa using hn) (by simpa using h)
  · split
    · rename_i h1 h2
      exact log2Search_spec 6 n 64 (by omega) (by simpa using h2)
    · apply log2Search_spec _ n 0 (by simpa using hn)
      rw [Nat.zero_add]
      apply searchSteps_spec
      calc n < 2 ^ n := Nat.lt_two_pow n
        _ ≤ 2 ^ (2 ^ (8 + n)) := by
          apply Nat.pow_le_pow_right (by decide)
          calc n ≤ 8 + n := by omega
            _ ≤ 2 ^ (8 + n) := Nat.le_of_lt (Nat.lt_two_pow _)


/-- The four comparisons behind the binade exponent. -/
theorem binade_aux (N D A B : ℚ) (hA : 0 < A) (hB : 0 < B) (hD : 0 < D)
    (hN1 : A ≤ N) (hN2 : N < 2 * A) (hD1 : B ≤ D) (hD2 : D < 2 * B) :
    (A / B * D ≤ N → A / B ≤ N / D ∧ N / D < A / B * 2)
    ∧ (¬ A / B * D ≤ N → A / B / 2 ≤ N / D ∧ N / D < A / B) := by
  have hN : 0 < N := lt_of_lt_of_le hA hN1
  constructor
  · intro h
    constructor
    · rw [le_div_iff₀ hD]; exact h
    · rw [div_lt_iff₀ hD]
      have : A / B * 2 * D = 2 * A * (D / B) := by ring
      rw [this]
      have h1 : 1 ≤ D / B := by rw [le_div_iff₀ hB]; linarith
      nlinarith
  · intro h
    push_neg at h
    constructor
    · rw [le_div_iff₀ hD]
      have : A / B / 2 * D = A * (D / (2 * B)) := by ring
      rw [this]
      have h1 : D / (2 * B) < 1 := by rw [div_lt_iff₀ (by linarith)]; linarith
      nlinarith
    · rw [div_lt_iff₀ hD]; exact h

theorem ilog2_spec (q : ℚ) (hq : q ≠ 0) :
    (2 : ℚ) ^ ilog2 q ≤ |q| ∧ |q| < (2 : ℚ) ^ (ilog2 q + 1) := by
  have hN : 1 ≤ q.num.natAbs := by
    have := Rat.num_ne_zero.mpr hq
    omega
  have hD : 1 ≤ q.den := q.den_pos
  obtain ⟨ha1, ha2⟩ := floorLog2_spec _ hN
  obtain ⟨hb1, hb2⟩ := floorLog2_spec _ hD
  have habs : |q| = (q.num.natAbs : ℚ) / (q.den : ℚ) := by
    conv_lhs => rw [← Rat.num_div_den q]
    rw [abs_div, Nat.abs_cast, Nat.cast_natAbs, Int.cast_abs]
  rw [habs, ilog2]
  generalize floorLog2 q.num.natAbs = a at *
  generalize floorLog2 q.den = b at *
  generalize q.num.natAbs = N at *
  generalize q.den = D at *
  have hA : (0 : ℚ) < 2 ^ a := by positivity
  have hB : (0 : ℚ) < 2 ^ b := by positivity
  have hDq : (0 : ℚ) < (D : ℚ) := by exact_mod_cast hD
  have hN1 : (2 : ℚ) ^ a ≤ (N : ℚ) := by exact_mod_cast ha1
  have hN2 : (N : ℚ) < 2 * 2 ^ a := by
    have : (N : ℚ) < 2 ^ (a + 1) := by exact_mod_cast ha2
    rw [pow_succ] at this
    linarith
  have hD1 : (2 : ℚ) ^ b ≤ (D : ℚ) := by exact_mod_cast hb1
  have hD2 : (D : ℚ) < 2 * 2 ^ b := by
    have : (D : ℚ) < 2 ^ (b + 1) := by exact_mod_cast hb2
    rw [pow_succ] at this
    linarith
  obtain ⟨aux1, aux2⟩ := binade_aux (N : ℚ) (D : ℚ) (2 ^ a) (2 ^ b) hA hB hDq hN1 hN2 hD1 hD2
  have hg : (2 : ℚ) ^ ((a : Int) - (b : Int)) = 2 ^ a / 2 ^ b := by
    rw [zpow_sub₀ (by norm_num), zpow_natCast, zpow_natCast]
  have hg1 : (2 : ℚ) ^ ((a : Int) - (b : Int) + 1) = 2 ^ a / 2 ^ b * 2 := by
    rw [zpow_add_one₀ (by norm_num), hg]
  have hg2 : (2 : ℚ) ^ ((a : Int) - (b : Int) - 1) = 2 ^ a / 2 ^ b / 2 := by
    rw [zpow_sub_one₀ (by norm_num), hg]
    rfl
  have hg3 : (2 : ℚ) ^ ((a : Int) - (b : Int) - 1 + 1) = 2 ^ a / 2 ^ b := by
    rw [sub_add_cancel, hg]
  split
  · rename_i hpos
    have hba : b ≤ a := by omega
    have htn : ((a : Int) - (b : Int)).toNat = a - b := by omega
    have hcast : ((2 ^ ((a : Int) - (b : Int)).toNat * D : Nat) : ℚ) = 2 ^ a / 2 ^ b * (D : ℚ) := by
      rw [htn]
      push_cast
      rw [pow_sub₀ _ (by norm_num) hba]
      rfl
    split
    · rename_i ht
      have ht' : (2 : ℚ) ^ a / 2 ^ b * (D : ℚ) ≤ (N : ℚ) := by
        rw [← hcast]
        exact_mod_cast ht
      rw [hg, hg1]
      exact aux1 ht'
    · rename_i ht
      have ht' : ¬ (2 : ℚ) ^ a / 2 ^ b * (D : ℚ) ≤ (N : ℚ) := by
        rw [← hcast]
        exact_mod_cast ht
      rw [hg2, hg3]
      exact aux2 ht'
  · rename_i hneg
    have hab : a ≤ b := by omega
    have htn : (-((a : Int) - (b : Int))).toNat = b - a := by omega
    have hiff : (D ≤ N * 2 ^ (-((a : Int) - (b : Int))).toNat)
        ↔ (2 : ℚ) ^ a / 2 ^ b * (D : ℚ) ≤ (N : ℚ) := by
      rw [htn]
      have h1 : (D ≤ N * 2 ^ (b - a)) ↔ ((D : ℚ) ≤ (N : ℚ) * 2 ^ (b - a)) := by
        constructor
        · intro h; exact_mod_cast h
        · intro h; exact_mod_cast h
      rw [h1, pow_sub₀ _ (by norm_num) hab, div_mul_eq_mul_div, div_le_iff₀ hB,
        ← div_eq_mul_inv, ← mul_div_assoc, le_div_iff₀ hA]
      constructor <;> intro h <;> linarith
    split
    · rename_i ht
      rw [hg, hg1]
      exact aux1 (hiff.mp ht)
    · rename_i ht
      rw [hg2, hg3]
      exact aux2 (fun h => ht (hiff.mpr h))


theorem roundDivEven_spec (N : Int) (D : Nat) (hD : 0 < D) :
    |(N : ℚ) / (D : ℚ) - (roundDivEven N D : ℚ)| ≤ 1 / 2
    ∧ (|(N : ℚ) / (D : ℚ) - (roundDivEven N D : ℚ)| = 1 / 2 → roundDivEven N D % 2 = 0) := by
  have hDz : (0 : Int) < (D : Int) := by exact_mod_cast hD
  have hDq : (0 : ℚ) < (D : ℚ) := by exact_mod_cast hD
  have h0 : 0 ≤ N % (D : Int) := Int.emod_nonneg _ (ne_of_gt hDz)
  have h1 : N % (D : Int) < D := Int.emod_lt_of_pos _ hDz
  have hsplit : (N : ℚ) / (D : ℚ) = ((N / (D : Int) : Int) : ℚ) + ((N % (D : Int) : Int) : ℚ) / (D : ℚ) := by
    have h := Int.emod_add_ediv N (D : Int)
    have h' : (N : ℚ) = ((N % (D : Int) : Int) : ℚ) + (D : ℚ) * ((N / (D : Int) : Int) : ℚ) := by
      exact_mod_cast h.symm
    rw [h']
    field_simp
    ring
  have h0q : (0 : ℚ) ≤ ((N % (D : Int) : Int) : ℚ) := by exact_mod_cast h0
  have h1q : ((N % (D : Int) : Int) : ℚ) < (D : ℚ) := by exact_mod_cast h1
  rw [roundDivEven]
  split
  · rename_i hlt
    have hltq : 2 * ((N % (D : Int) : Int) : ℚ) < (D : ℚ) := by exact_mod_cast hlt
    have hfrac : ((N % (D : Int) : Int) : ℚ) / (D : ℚ) < 1 / 2 := by
      rw [div_lt_iff₀ hDq]; linarith
    have hfrac0 : 0 ≤ ((N % (D : Int) : Int) : ℚ) / (D : ℚ) := div_nonneg h0q (le_of_lt hDq)
    rw [hsplit, add_sub_cancel_left, abs_of_nonneg hfrac0]
    exact ⟨le_of_lt hfrac, fun h => absurd h (ne_of_lt hfrac)⟩
  · split
    · rename_i hnl hgt
      have hgtq : (D : ℚ) < 2 * ((N % (D : Int) : Int) : ℚ) := by exact_mod_cast hgt
      have hfrac : 1 / 2 < ((N % (D : Int) : Int) : ℚ) / (D : ℚ) := by
        rw [lt_div_iff₀ hDq]; linarith
      have hfrac1 : ((N % (D : Int) : Int) : ℚ) / (D : ℚ) < 1 := by
        rw [div_lt_iff₀ hDq]; linarith
      have e : ((N / (D : Int) : Int) : ℚ) + ((N % (D : Int) : Int) : ℚ) / (D : ℚ)
          - ((N / (D : Int) + 1 : Int) : ℚ) = ((N % (D : Int) : Int) : ℚ) / (D : ℚ) - 1 := by
        push_cast; ring
      rw [hsplit, e, abs_of_neg (by linarith)]
      exact ⟨by linarith, fun h => absurd h (by intro h'; linarith)⟩
    · rename_i hnl hng
      have htie : 2 * (N % (D : Int)) = (D : Int) := by omega
      have htieq : 2 * ((N % (D : Int) : Int) : ℚ) = (D : ℚ) := by exact_mod_cast htie
      have hfrac : ((N % (D : Int) : Int) : ℚ) / (D : ℚ) = 1 / 2 := by
        rw [div_eq_iff (ne_of_gt hDq)]; linarith
      split
      · rename_i heven
        rw [hsplit, add_sub_cancel_left, hfrac]
        exact ⟨abs_le.mpr ⟨by norm_num, by norm_num⟩, fun _ => heven⟩
      · rename_i hodd
        have e : ((N / (D : Int) : Int) : ℚ) + ((N % (D : Int) : Int) : ℚ) / (D : ℚ)
            - ((N / (D : Int) + 1 : Int) : ℚ) = ((N % (D : Int) : Int) : ℚ) / (D : ℚ) - 1 := by
          push_cast; ring
        rw [hsplit, e, hfrac]
        refine ⟨abs_le.mpr ⟨by norm_num, by norm_num⟩, fun _ => ?_⟩
        omega


/-- `roundF64` rounds to nearest, ties to even, at the exponent of the last place of
binary64: for `q ≠ 0` and `e = max (ilog2 q - 52) (-1074)`, the result is `m * 2 ^ e` for
the integer `m` nearest to `q / 2 ^ e` (the even one of two nearest), and `|m| ≤ 2 ^ 53`. -/
theorem roundF64_spec (q : ℚ) (hq : q ≠ 0) :
    ∃ m e : Int, roundF64 q = (m : ℚ) * (2 : ℚ) ^ e
      ∧ e = max (ilog2 q - 52) (-1074)
      ∧ |q / (2 : ℚ) ^ e - (m : ℚ)| ≤ 1 / 2
      ∧ (|q / (2 : ℚ) ^ e - (m : ℚ)| = 1 / 2 → m % 2 = 0)
      ∧ |(m : ℚ)| ≤ 2 ^ 53 := by
  have hden : (0 : ℚ) < (q.den : ℚ) := by exact_mod_cast q.den_pos
  have hqd : (q.num : ℚ) / (q.den : ℚ) = q := Rat.num_div_den q
  have key : ∀ (m e : Int), e = max (ilog2 q - 52) (-1074) →
      |q / (2 : ℚ) ^ e - (m : ℚ)| ≤ 1 / 2 → |(m : ℚ)| ≤ 2 ^ 53 := by
    intro m e he hm
    have hpos : (0 : ℚ) < (2 : ℚ) ^ e := by positivity
    have hup := (ilog2_spec q hq).2
    have hle : ilog2 q + 1 ≤ e + 53 := by
      have := le_max_left (ilog2 q - 52) (-1074)
      omega
    have h2 : (2 : ℚ) ^ (ilog2 q + 1) ≤ (2 : ℚ) ^ (e + 53) :=
      zpow_le_zpow_right₀ (by norm_num) hle
    have h3 : (2 : ℚ) ^ (e + 53) = (2 : ℚ) ^ e * 2 ^ 53 := by
      rw [zpow_add₀ (by norm_num)]
      norm_cast
    have hx : |q / (2 : ℚ) ^ e| < 2 ^ 53 := by
      rw [abs_div, abs_of_pos hpos, div_lt_iff₀ hpos]
      calc |q| < (2 : ℚ) ^ (ilog2 q + 1) := hup
        _ ≤ (2 : ℚ) ^ e * 2 ^ 53 := by rw [← h3]; exact h2
        _ = 2 ^ 53 * (2 : ℚ) ^ e := by ring
    have hm1 : |(m : ℚ)| < 2 ^ 53 + 1 := by
      have := abs_sub_abs_le_abs_sub (m : ℚ) (q / (2 : ℚ) ^ e)
      rw [abs_sub_comm] at this
      linarith
    have hm2 : |m| < 2 ^ 53 + 1 := by exact_mod_cast hm1
    have hm3 : |m| ≤ 2 ^ 53 := by omega
    exact_mod_cast hm3
  rw [roundF64, if_neg hq]
  simp only
  split
  · rename_i hpos
    obtain ⟨k, hk⟩ : ∃ k : Nat, max (ilog2 q - 52) (-1074) = (k : Int) :=
      ⟨(max (ilog2 q - 52) (-1074)).toNat, by omega⟩
    rw [hk]
    have hD : 0 < q.den * 2 ^ k := Nat.mul_pos q.den_pos (by positivity)
    obtain ⟨hr1, hr2⟩ := roundDivEven_spec q.num (q.den * 2 ^ k) hD
    have hx : q / (2 : ℚ) ^ (k : Int) = (q.num : ℚ) / ((q.den * 2 ^ k : Nat) : ℚ) := by
      rw [zpow_natCast]
      push_cast
      rw [← div_div, hqd]
    refine ⟨roundDivEven q.num (q.den * 2 ^ k), (k : Int), ?_, rfl, ?_, ?_, ?_⟩
    · simp only [Int.toNat_ofNat, zpow_natCast]
      push_cast
      ring
    · rw [hx]; exact hr1
    · rw [hx]; exact hr2
    · exact key _ _ hk.symm (by rw [hx]; exact hr1)
  · rename_i hneg
    obtain ⟨k, hk⟩ : ∃ k : Nat, max (ilog2 q - 52) (-1074) = -(k : Int) :=
      ⟨(-(max (ilog2 q - 52) (-1074))).toNat, by omega⟩
    rw [hk]
    obtain ⟨hr1, hr2⟩ := roundDivEven_spec (q.num * ((2 ^ k : Nat) : Int)) q.den q.den_pos
    have hx : q / (2 : ℚ) ^ (-(k : Int))
        = ((q.num * ((2 ^ k : Nat) : Int) : Int) : ℚ) / (q.den : ℚ) := by
      rw [zpow_neg, zpow_natCast, div_inv_eq_mul]
      push_cast
      rw [mul_div_right_comm, hqd]
    refine ⟨roundDivEven (q.num * ((2 ^ k : Nat) : Int)) q.den, -(k : Int), ?_, rfl, ?_, ?_, ?_⟩
    · simp only [neg_neg, Int.toNat_ofNat, zpow_neg, zpow_natCast]
      rw [Rat.divInt_eq_div]
      push_cast
      rfl
    · rw [hx]; exact hr1
    · rw [hx]; exact hr2
    · exact key _ _ hk.symm (by rw [hx]; exact hr1)


/-- `roundHalfAway` is Go `math.Round`: a nearest integer, a half rounding away from zero. -/
theorem roundHalfAway_spec (q : ℚ) :
    |q - (roundHalfAway q : ℚ)| ≤ 1 / 2
    ∧ (|q - (roundHalfAway q : ℚ)| = 1 / 2 → |q| < |(roundHalfAway q : ℚ)|) := by
  have hfl : ∀ x : ℚ, ((Rat.floor x : Int) : ℚ) ≤ x ∧ x < ((Rat.floor x : Int) : ℚ) + 1 := by
    intro x
    exact ⟨Int.floor_le x, Int.lt_floor_add_one x⟩
  rw [roundHalfAway]
  split
  · rename_i h0
    obtain ⟨h1, h2⟩ := hfl (q + 1 / 2)
    have hr : (0 : ℚ) < ((Rat.floor (q + 1 / 2) : Int) : ℚ) + 1 := by linarith
    have hr0 : (0 : ℚ) ≤ ((Rat.floor (q + 1 / 2) : Int) : ℚ) := by
      have : (0 : Int) < Rat.floor (q + 1 / 2) + 1 := by exact_mod_cast hr
      have : (0 : Int) ≤ Rat.floor (q + 1 / 2) := by omega
      exact_mod_cast this
    refine ⟨abs_le.mpr ⟨by linarith, by linarith⟩, fun htie => ?_⟩
    rw [abs_of_nonneg h0, abs_of_nonneg hr0]
    rcases abs_eq (by norm_num : (0 : ℚ) ≤ 1 / 2) |>.mp htie with h | h
    · linarith
    · linarith
  · rename_i h0
    push_neg at h0
    obtain ⟨h1, h2⟩ := hfl (-q + 1 / 2)
    have hr : (0 : ℚ) < ((Rat.floor (-q + 1 / 2) : Int) : ℚ) + 1 := by linarith
    have hr0 : (0 : ℚ) ≤ ((Rat.floor (-q + 1 / 2) : Int) : ℚ) := by
      have : (0 : Int) < Rat.floor (-q + 1 / 2) + 1 := by exact_mod_cast hr
      have : (0 : Int) ≤ Rat.floor (-q + 1 / 2) := by omega
      exact_mod_cast this
    push_cast
    refine ⟨abs_le.mpr ⟨by linarith, by linarith⟩, fun htie => ?_⟩
    rw [abs_of_neg h0, abs_neg, abs_of_nonneg hr0]
    rcases abs_eq (by norm_num : (0 : ℚ) ≤ 1 / 2) |>.mp htie with h | h
    · linarith
    · linarith

end Arithmetic

/-! ### The integrators -/

section Lemmas

variable {α σ : Type}

theorem index_natCast {s : List α} {j : Nat} {v : α} (hv : s[j]? = some v) :
    index s (j : Int) = .ok v := by
  simp [index, hv]

theorem index_getD [Zero α] {s : List α} {j : Nat} (hj : j < s.length) :
    index s (j : Int) = .ok (s.getD j 0) := by
  apply index_natCast
  simp [List.getD, List.getElem?_eq_getElem hj]

theorem assign_natCast {s : List α} {j : Nat} (hj : j < s.length) (v : α) :
    assign s (j : Int) v = .ok (s.set j v) := by
  simp [assign, hj]

theorem ok_bind {β γ : Type} (a : β) (f : β → Except Fault γ) :
    (Except.ok a >>= f) = f a := rfl

/-- A loop whose body simulates a pure step function `g` along a relation `R` (indexed by
the loop variable) computes the left fold of `g` over the values of the loop variable. -/
theorem forLoop_sim {β γ : Type} (body : Int → β → Except Fault β) (g : Int → γ → γ)
    (R : Int → β → γ → Prop) :
    ∀ (trips : Nat) (i : Int) (acc : β) (a : γ),
      (∀ j acc a, i ≤ j → j < i + trips → R j acc a →
        ∃ acc', body j acc = .ok acc' ∧ R (j + 1) acc' (g j a)) →
      R i acc a →
      ∃ acc', forLoop body trips i acc = .ok acc'
        ∧ R (i + trips) acc' ((loopIndices trips i).foldl (fun a j => g j a) a) := by
  intro trips
  induction trips with
  | zero => intro i acc a _ hR; exact ⟨acc, rfl, by simpa [loopIndices] using hR⟩
  | succ m ih =>
    intro i acc a hbody hR
    obtain ⟨acc1, h1, h2⟩ := hbody i acc a (le_refl _) (by push_cast; omega) hR
    obtain ⟨acc2, h3, h4⟩ := ih (i + 1) acc1 (g i a)
      (fun j acc a hj1 hj2 hR => hbody j acc a (by omega) (by push_cast; omega) hR) h2
    refine ⟨acc2, ?_, ?_⟩
    · simp only [forLoop, h1]
      exact h3
    · have e : i + ((m + 1 : Nat) : Int) = i + 1 + (m : Int) := by push_cast; ring
      rw [e]
      exact h4

theorem loopIndices_eq_map (trips : Nat) (i : Int) :
    loopIndices trips i = (List.range trips).map (fun (j : Nat) => i + (j : Int)) := by
  induction trips generalizing i with
  | zero => rfl
  | succ m ih =>
    rw [loopIndices, ih, List.range_succ_eq_map, List.map_cons, List.map_map]
    simp only [Nat.cast_zero, add_zero, List.cons.injEq, true_and]
    apply List.map_congr_left
    intro j _
    simp only [Function.comp, Nat.cast_succ]
    ring

theorem calculate_succ [Zero α] [Add α] [Sub α] [Mul α] [Div α] [Float64Ops α]
    (f : Integrand α σ) (left right h : List α) (n : Int) (fuel : Nat)
    (c : Frame α σ) :
    calculate f left right h n (fuel + 1) c = (do
      let rk ← index right c.k
      let lk ← index left c.k
      let hk ← index h c.k
      let r ← level
        (if c.k < n - 1 then (fun c => calculate f left right h n fuel { c with k := c.k + 1 })
          else invoke f)
        left right h (Float64Ops.roundToInt ((rk - lk) / hk)) c
      let hk ← index h r.2.k
      let c ← setBound left r.2
      pure (r.1 * hk, { c with k := c.k - 1 })) := by
  rw [calculate]
  split <;> rfl

theorem setInterior_ok [Zero α] [Add α] [Mul α] [Float64Ops α]
    {left h x : List α} {k : Nat} (hl : k < left.length)
    (hh : k < h.length) (hx : k < x.length) (i : Int) (env : σ) :
    setInterior left h i ({ k := (k : Int), x := x, env := env } : Frame α σ)
      = .ok { k := (k : Int), x := x.set k (left.getD k 0 + Float64Ops.ofInt i * h.getD k 0),
              env := env } := by
  simp only [setInterior, index_getD hl, index_getD hh, assign_natCast hx]
  rfl

theorem setBound_ok [Zero α] {bound x : List α} {k : Nat} (hb : k < bound.length)
    (hx : k < x.length) (env : σ) :
    setBound bound ({ k := (k : Int), x := x, env := env } : Frame α σ)
      = .ok { k := (k : Int), x := x.set k (bound.getD k 0), env := env } := by
  simp only [setBound, index_getD hb, assign_natCast hx]
  rfl

/-- One level of `calculate`, the node evaluator `E` behaving like the pure `sub` on the
frames in which only coordinate `k` of `x` has been overwritten. -/
theorem level_ok [Zero α] [Add α] [Sub α] [Mul α] [Div α] [Float64Ops α]
    {left right h x : List α} {k : Nat}
    (E : Frame α σ → Except Fault (α × Frame α σ)) (sub : Integrand α σ)
    (hl : k < left.length) (hr : k < right.length) (hh : k < h.length) (hx : k < x.length)
    (hxk : x.set k (left.getD k 0) = x)
    (hE : ∀ z env, E { k := (k : Int), x := x.set k z, env := env }
      = .ok ((sub (x.set k z) env).1,
          { k := (k : Int), x := x.set k z, env := (sub (x.set k z) env).2 }))
    (count : Int) (env : σ) :
    level E left right h count { k := (k : Int), x := x, env := env }
      = .ok ((sweepAcc sub (left.getD k 0) (right.getD k 0) (h.getD k 0) count k x env).1,
          { k := (k : Int), x := x.set k (right.getD k 0),
            env := (sweepAcc sub (left.getD k 0) (right.getD k 0) (h.getD k 0)
              count k x env).2 }) := by
  have h0 := hE (left.getD k 0) env
  rw [hxk] at h0
  obtain ⟨acc, hloop, hacc1, hacck, haccenv, z, haccx⟩ :=
    forLoop_sim (levelStep E left h)
      (fun i (a : α × σ) =>
        let ri := sub (x.set k (left.getD k 0 + Float64Ops.ofInt i * h.getD k 0)) a.2
        (a.1 + ri.1, ri.2))
      (fun _ acc a => acc.1 = a.1 ∧ acc.2.k = (k : Int) ∧ acc.2.env = a.2
        ∧ ∃ z, acc.2.x = x.set k z)
      (count - 1).toNat 1
      ((0 : α) + Float64Ops.half * (sub x env).1,
        { k := (k : Int), x := x, env := (sub x env).2 })
      ((0 : α) + Float64Ops.half * (sub x env).1, (sub x env).2)
      (by
        rintro j ⟨s, ⟨ck, cx, cenv⟩⟩ ⟨a, e⟩ _ _ ⟨h1, h2, h3, z, h4⟩
        simp only at h1 h2 h3 h4
        subst h1 h2 h3 h4
        have hxz : k < (x.set k z).length := by simpa using hx
        refine ⟨(s + (sub (x.set k (left.getD k 0 + Float64Ops.ofInt j * h.getD k 0)) cenv).1,
          { k := (k : Int), x := x.set k (left.getD k 0 + Float64Ops.ofInt j * h.getD k 0),
            env := (sub (x.set k (left.getD k 0 + Float64Ops.ofInt j * h.getD k 0)) cenv).2 }),
          ?_, rfl, rfl, rfl, _, rfl⟩
        simp only [levelStep, setInterior_ok hl hh hxz, ok_bind, List.set_set, hE]
        rfl)
      ⟨rfl, rfl, rfl, left.getD k 0, hxk.symm⟩
  obtain ⟨s, ⟨ck, cx, cenv⟩⟩ := acc
  simp only at hacc1 hacck haccenv haccx
  subst hacck haccx
  have hxz : k < (x.set k z).length := by simpa using hx
  simp only [level, h0, ok_bind, hloop, setBound_ok hr hxz, List.set_set, hE]
  simp only [sweepAcc, interior, hxk, hacc1, haccenv]
  rfl

theorem set_getD_self [Zero α] {x left : List α} {k : Nat} (hk : k < left.length)
    (h : x[k]? = left[k]?) : x.set k (left.getD k 0) = x := by
  apply List.ext_getElem?
  intro j
  by_cases hj : k = j
  · subst hj
    rw [List.getElem?_eq_getElem hk] at h
    have hx : k < x.length := by
      by_contra hc
      rw [List.getElem?_eq_none (by omega)] at h
      exact absurd h (by simp)
    simp [List.getElem?_set, hx, h, List.getD, List.getElem?_eq_getElem hk]
  · simp [List.getElem?_set, hj]

theorem invoke_ok (f : Integrand α σ) (k : Int) (x : List α) (env : σ) :
    invoke f { k := k, x := x, env := env }
      = .ok ((f x env).1, { k := k, x := x, env := (f x env).2 }) := rfl

/-- The closure `calculate`, entered with the shared index at `k` and the buffer agreeing
with `left` from coordinate `k` on, returns the value of the recursion on fresh points,
restores the buffer and leaves the shared index at `k - 1`. -/
theorem calculate_ok [Zero α] [Add α] [Sub α] [Mul α] [Div α] [Float64Ops α]
    (f : Integrand α σ) {left right h : List α}
    (hr : right.length = left.length) (hh : h.length = left.length) :
    ∀ (d k : Nat) (x : List α) (env : σ) (fuel : Nat),
      k + d + 1 = left.length → x.length = left.length →
      (∀ j, k ≤ j → x[j]? = left[j]?) → d + 1 ≤ fuel →
      calculate f left right h (left.length : Int) fuel { k := (k : Int), x := x, env := env }
        = .ok ((trapezoid f left right h (d + 1) k x env).1,
            { k := (k : Int) - 1, x := x,
              env := (trapezoid f left right h (d + 1) k x env).2 }) := by
  intro d
  induction d with
  | zero =>
    intro k x env fuel hk hx hxl hf
    obtain ⟨fuel, rfl⟩ : ∃ m, fuel = m + 1 := ⟨fuel - 1, by omega⟩
    have hkl : k < left.length := by omega
    have hxk := set_getD_self hkl (hxl k (le_refl _))
    have hcond : ¬ ((k : Int) < (left.length : Int) - 1) := by omega
    rw [calculate_succ]
    simp only [index_getD hkl, index_getD (hr ▸ hkl), index_getD (hh ▸ hkl), ok_bind,
      if_neg hcond]
    rw [level_ok (invoke f) f hkl (hr ▸ hkl) (hh ▸ hkl) (hx ▸ hkl) hxk
      (fun z env => invoke_ok f _ _ env)]
    simp only [ok_bind, index_getD (hh ▸ hkl),
      setBound_ok hkl (show k < (x.set k (right.getD k 0)).length by simpa [hx] using hkl),
      List.set_set, hxk]
    rfl
  | succ d ih =>
    intro k x env fuel hk hx hxl hf
    obtain ⟨fuel, rfl⟩ : ∃ m, fuel = m + 1 := ⟨fuel - 1, by omega⟩
    have hkl : k < left.length := by omega
    have hxk := set_getD_self hkl (hxl k (le_refl _))
    have hcond : (k : Int) < (left.length : Int) - 1 := by omega
    rw [calculate_succ]
    simp only [index_getD hkl, index_getD (hr ▸ hkl), index_getD (hh ▸ hkl), ok_bind,
      if_pos hcond]
    rw [level_ok _ (trapezoid f left right h (d + 1) (k + 1)) hkl (hr ▸ hkl) (hh ▸ hkl)
      (hx ▸ hkl) hxk
      (fun z env => by
        have := ih (k + 1) (x.set k z) env fuel (by omega) (by simpa using hx)
          (fun j hj => by
            rw [List.getElem?_set_ne (by omega)]
            exact hxl j (by omega))
          (by omega)
        simpa using this)]
    simp only [ok_bind, index_getD (hh ▸ hkl),
      setBound_ok hkl (show k < (x.set k (right.getD k 0)).length by simpa [hx] using hkl),
      List.set_set, hxk]
    rfl

theorem copy_make_self [Zero α] (left : List α) : copy (make left.length : List α) left = left := by
  simp [copy, make]

/-- The value and the final integrand state of `Quadrature` on inputs of equal length
`n ≥ 1` are those of the recursion on fresh points, started at coordinate `0` on the
point `left`. -/
theorem Quadrature_eq_trapezoid [Zero α] [Add α] [Sub α] [Mul α] [Div α] [Float64Ops α]
    (f : Integrand α σ) {left right h : List α}
    (hr : right.length = left.length) (hh : h.length = left.length)
    (hn : 0 < left.length) (env : σ) :
    Quadrature f left right h env
      = .ok (((trapezoid f left right h left.length 0 left env).1, none),
          (trapezoid f left right h left.length 0 left env).2) := by
  obtain ⟨d, hd⟩ : ∃ d, left.length = d + 1 := ⟨left.length - 1, by omega⟩
  have hc := calculate_ok f hr hh d 0 left env (left.length + 1) (by omega) rfl
    (fun _ _ => rfl) (by omega)
  simp only [Quadrature, hr, hh, ne_eq, not_true_eq_false, or_self, if_false,
    copy_make_self]
  rw [show ((0 : Int)) = ((0 : Nat) : Int) from rfl, hc, ← hd]
  rfl

end Lemmas

section MonteCarloLemmas

variable {α σ : Type}

theorem randomVector_ok [Zero α] [Add α] [Sub α] [Mul α]
    (r : Nat → α) {a b v : List α} (hb : b.length = a.length)
    (hv : v.length = a.length) (d : Nat) :
    randomVector r a b v d = .ok (samplePoint r a b d, d + a.length) := by
  obtain ⟨acc, hloop, m, hm, hd, hlen, hget⟩ :=
    forLoop_sim
      (fun i (acc : List α × Nat) => do
        let ai ← index a i
        let u := r acc.2
        let bi ← index b i
        let v ← assign acc.1 i (ai + u * (bi - ai))
        pure (v, acc.2 + 1))
      (fun _ (u : Unit) => u)
      (fun j acc _ => ∃ m : Nat, j = (m : Int) ∧ acc.2 = d + m ∧ acc.1.length = a.length
        ∧ ∀ i, acc.1[i]? = if i < m then
            some (a.getD i 0 + r (d + i) * (b.getD i 0 - a.getD i 0)) else v[i]?)
      a.length 0 (v, d) ()
      (by
        rintro j ⟨w, e⟩ _ hj0 hjn ⟨m, rfl, h2, h3, h4⟩
        simp only at h2 h3 h4
        subst h2
        have hma : m < a.length := by omega
        refine ⟨(w.set m (a.getD m 0 + r (d + m) * (b.getD m 0 - a.getD m 0)), d + m + 1),
          ?_, m + 1, by push_cast; ring, rfl, by simpa using h3, ?_⟩
        · simp only [index_getD hma, index_getD (hb ▸ hma), assign_natCast (h3 ▸ hma),
            ok_bind]
          rfl
        · intro i
          by_cases him : m = i
          · subst him
            simp [List.getElem?_set, h3, hma]
          · rw [List.getElem?_set_ne him, h4 i]
            by_cases h5 : i < m
            · simp [h5, Nat.lt_succ_of_lt h5]
            · have : ¬ i < m + 1 := by omega
              simp [h5, this])
      ⟨0, rfl, rfl, hv, fun i => by simp⟩
  obtain ⟨w, e⟩ := acc
  simp only at hd hlen hget
  have hm' : m = a.length := by omega
  subst hd
  have hw : w = samplePoint r a b d := by
    apply List.ext_getElem?
    intro i
    rw [hget i, samplePoint]
    by_cases hi : i < a.length
    · simp [hm', hi, List.getElem?_map, List.getElem?_range hi]
    · have hvi : v[i]? = none := List.getElem?_eq_none (by omega)
      have hri : (List.range a.length)[i]? = none :=
        List.getElem?_eq_none (by simpa using hi)
      simp [hm', hi, hvi, hri]
  rw [randomVector, hloop, hw, hm']

theorem volume_loop [Zero α] [Sub α] [Mul α]
    {left right : List α} [One α] (hr : right.length = left.length) :
    forLoop (fun i (volume : α) => do
        let ri ← index right i
        let li ← index left i
        pure (volume * (ri - li)))
      left.length 0 (1 : α) = .ok (volumeOf left right) := by
  obtain ⟨acc, hloop, hacc, -⟩ :=
    forLoop_sim
      (fun i (volume : α) => do
        let ri ← index right i
        let li ← index left i
        pure (volume * (ri - li)))
      (fun j (v : α) => v * (right.getD j.toNat 0 - left.getD j.toNat 0))
      (fun j acc a => acc = a ∧ 0 ≤ j)
      left.length 0 (1 : α) (1 : α)
      (by
        rintro j acc a hj0 hjn ⟨rfl, -⟩
        obtain ⟨m, rfl⟩ : ∃ m : Nat, j = (m : Int) := ⟨j.toNat, by omega⟩
        have hml : m < left.length := by omega
        refine ⟨_, ?_, rfl, by omega⟩
        simp only [index_getD hml, index_getD (hr ▸ hml), ok_bind, Int.toNat_ofNat]
        rfl)
      ⟨rfl, le_refl _⟩
  rw [hloop, hacc, loopIndices_eq_map, List.foldl_map, volumeOf]
  simp

theorem MonteCarlo_ok [Zero α] [Add α] [Sub α] [Mul α] [One α] [Div α] [Float64Ops α]
    (f : Integrand α σ)
    {left right : List α} (hr : right.length = left.length) (points : Int)
    (r : Nat → α) (s : Sampler σ) :
    MonteCarlo f left right points r s
      = .ok (((sampleSum f r left right points.toNat s.draws s.env).1 * volumeOf left right
                / Float64Ops.ofInt points, none),
          { draws := s.draws + points.toNat * left.length,
            env := (sampleSum f r left right points.toNat s.draws s.env).2 }) := by
  obtain ⟨acc, hloop, m, hm, hlen, hsum, henv, hdraws⟩ :=
    forLoop_sim
      (fun _ (acc : List α × α × Sampler σ) => do
        let (x, draws) ← randomVector r left right acc.1 acc.2.2.draws
        let (v, env) := f x acc.2.2.env
        pure (x, acc.2.1 + v, ({ draws := draws, env := env } : Sampler σ)))
      (fun j (a : α × σ) =>
        let rj := f (samplePoint r left right (s.draws + j.toNat * left.length)) a.2
        (a.1 + rj.1, rj.2))
      (fun j acc a => ∃ m : Nat, j = (m : Int) ∧ acc.1.length = left.length
        ∧ acc.2.1 = a.1 ∧ acc.2.2.env = a.2 ∧ acc.2.2.draws = s.draws + m * left.length)
      points.toNat 0 (make left.length, (0 : α), s) ((0 : α), s.env)
      (by
        rintro j ⟨x, sm, ⟨dr, e⟩⟩ ⟨a, e'⟩ _ _ ⟨m, rfl, h1, h2, h3, h4⟩
        simp only at h1 h2 h3 h4
        subst h2 h3 h4
        refine ⟨(samplePoint r left right (s.draws + m * left.length),
            sm + (f (samplePoint r left right (s.draws + m * left.length)) e).1,
            { draws := s.draws + m * left.length + left.length,
              env := (f (samplePoint r left right (s.draws + m * left.length)) e).2 }),
          ?_, m + 1, by push_cast; ring, by simp [samplePoint], ?_, ?_, ?_⟩
        · simp only [randomVector_ok r hr h1, ok_bind]
          rfl
        · simp
        · simp
        · simp only [Nat.add_mul, Nat.one_mul, Nat.add_assoc])
      ⟨0, rfl, by simp [make], rfl, rfl, by simp⟩
  obtain ⟨x, sm, ⟨dr, e⟩⟩ := acc
  simp only at hlen hsum henv hdraws
  have hm' : m = points.toNat := by omega
  subst hsum henv hdraws hm'
  simp only [MonteCarlo, hr, ne_eq, not_true_eq_false, if_false, volume_loop hr, ok_bind,
    hloop]
  simp only [loopIndices_eq_map, List.foldl_map, sampleSum, zero_add, Int.toNat_ofNat]
  rfl

theorem foldl_pure_fst [Add α] {ι : Type} (F : ι → α) (l : List ι) (a : α) :
    (l.foldl (fun (acc : α × Unit) i => (acc.1 + F i, ())) (a, ())).1
      = l.foldl (fun sum i => sum + F i) a := by
  induction l generalizing a with
  | nil => rfl
  | cons i l ih => rw [List.foldl_cons, List.foldl_cons, ih]

theorem sampleSum_pure [Zero α] [Add α] [Sub α] [Mul α]
    (g : List α → α) (r : Nat → α) (left right : List α) (points d : Nat) :
    (sampleSum (pureIntegrand g) r left right points d ()).1
      = (List.range points).foldl
          (fun sum j => sum + g (samplePoint r left right (d + j * left.length))) 0 :=
  foldl_pure_fst (fun j => g (samplePoint r left right (d + j * left.length))) _ 0

end MonteCarloLemmas

section Counting

variable {α σ : Type}

theorem foldl_counter {ι : Type} (step : α × Int × σ → ι → α × Int × σ) (N : Int)
    (hstep : ∀ acc i, (step acc i).2.1 = acc.2.1 + N) (l : List ι) (acc : α × Int × σ) :
    (l.foldl step acc).2.1 = acc.2.1 + l.length * N := by
  induction l generalizing acc with
  | nil => simp
  | cons i l ih =>
    rw [List.foldl_cons, ih, hstep, List.length_cons]
    push_cast
    ring

theorem loopIndices_length (trips : Nat) (i : Int) : (loopIndices trips i).length = trips := by
  simp [loopIndices_eq_map]

theorem sampleSum_counter [Zero α] [Add α] [Sub α] [Mul α] (f : Integrand α σ)
    (r : Nat → α) (left right : List α) (points d : Nat) (c : Int) (env : σ) :
    (sampleSum (withInvokeCounter f) r left right points d (c, env)).2.1 = c + points := by
  rw [sampleSum, foldl_counter _ 1 (fun acc i => rfl)]
  simp

theorem nodeCount_eq [Zero α] [Sub α] [Div α] [Float64Ops α] (left right h : List α) (k : Nat) :
    nodeCount left right h k = ((interior (countAt left right h k)).length : Int) + 2 := by
  rw [interior, loopIndices_length, nodeCount]
  omega

theorem sweepAcc_counter [Zero α] [Add α] [Mul α] [Float64Ops α]
    (sub : Integrand α (Int × σ)) (N : Int)
    (hsub : ∀ x s, (sub x s).2.1 = s.1 + N) (lk rk hk : α) (count : Int) (k : Nat)
    (x : List α) (s : Int × σ) :
    (sweepAcc sub lk rk hk count k x s).2.1
      = s.1 + (((interior count).length : Int) + 2) * N := by
  simp only [sweepAcc]
  rw [hsub, foldl_counter
    (fun (acc : α × Int × σ) i =>
      (acc.1 + (sub (x.set k (lk + Float64Ops.ofInt i * hk)) acc.2).1,
        (sub (x.set k (lk + Float64Ops.ofInt i * hk)) acc.2).2))
    N (fun acc i => hsub _ _), hsub]
  ring

theorem trapezoid_counter [Zero α] [Add α] [Sub α] [Mul α] [Div α] [Float64Ops α]
    (f : Integrand α σ) (left right h : List α) :
    ∀ (d k : Nat) (x : List α) (s : Int × σ),
      (trapezoid (withInvokeCounter f) left right h d k x s).2.1
        = s.1 + invocations left right h d k := by
  intro d
  induction d with
  | zero => intro k x s; simp [trapezoid, invocations, withInvokeCounter]
  | succ d ih =>
    intro k x s
    rw [trapezoid, sweep]
    simp only
    rw [sweepAcc_counter _ (invocations left right h d (k + 1)) (fun x s => ih _ _ _),
      invocations, nodeCount_eq]

theorem invocations_eq_prod [Zero α] [Sub α] [Div α] [Float64Ops α]
    (left right h : List α) (d k : Nat) :
    invocations left right h d k
      = ((List.range d).map (fun j => nodeCount left right h (k + j))).prod := by
  induction d generalizing k with
  | zero => simp [invocations]
  | succ d ih =>
    rw [invocations, ih, List.range_succ_eq_map, List.map_cons, List.prod_cons, List.map_map]
    simp only [Nat.add_zero]
    congr 1
    congr 1
    apply List.map_congr_left
    intro j _
    simp only [Function.comp, Nat.succ_eq_add_one]
    congr 1
    omega

end Counting

section Exact

theorem sum_range_map (m : Nat) (G : Nat → ℚ) :
    ((List.range m).map G).sum = (Finset.range m).sum G := by
  induction m with
  | zero => simp
  | succ m ih =>
    rw [List.range_succ, List.map_append, List.sum_append, ih, Finset.sum_range_succ]
    simp

theorem sum_Ico_eq_range (F : Int → ℚ) (count : Int) :
    (Finset.Ico 1 count).sum F
      = (Finset.range (count - 1).toNat).sum (fun (j : Nat) => F (1 + (j : Int))) := by
  apply Finset.sum_bij' (fun (i : Int) _ => (i - 1).toNat) (fun (j : Nat) _ => 1 + (j : Int))
  · intro i hi
    simp only [Finset.mem_Ico] at hi
    simp only [Finset.mem_range]
    omega
  · intro j hj
    simp only [Finset.mem_range] at hj
    simp only [Finset.mem_Ico]
    omega
  · intro i hi
    simp only [Finset.mem_Ico] at hi
    omega
  · intro j hj
    simp
  · intro i hi
    simp only [Finset.mem_Ico] at hi
    congr 1
    omega

theorem sum_interior (F : Int → ℚ) (count : Int) :
    ((interior count).map F).sum = (Finset.Ico 1 count).sum F := by
  rw [interior, loopIndices_eq_map, List.map_map, sum_range_map, sum_Ico_eq_range]
  rfl

theorem foldl_pure_sum {ι : Type} (F : ι → ℚ) (l : List ι) (a : ℚ) :
    (l.foldl (fun (acc : ℚ × Unit) i => (acc.1 + F i, ())) (a, ())).1 = a + (l.map F).sum := by
  induction l generalizing a with
  | nil => simp
  | cons i l ih =>
    rw [List.foldl_cons, ih, List.map_cons, List.sum_cons]
    ring

/-- On a stateless integrand and in exact arithmetic, the recursion on fresh points in
the operation order of the source is the recursion of the specification. -/
theorem trapezoid_pure_eq_spec (g : List ℚ → ℚ) (left right h : List ℚ) :
    ∀ (d k : Nat) (x : List ℚ),
      (trapezoid (pureIntegrand g) left right h d k x ()).1
        = trapezoidSpec g left right h d k x := by
  intro d
  induction d with
  | zero => intro k x; rfl
  | succ d ih =>
    intro k x
    rw [trapezoid, trapezoidSpec]
    simp only [sweep, sweepAcc, ih]
    rw [foldl_pure_sum
      (fun i => trapezoidSpec g left right h d (k + 1)
        (x.set k (left.getD k 0 + Float64Ops.ofInt i * h.getD k 0)))]
    rw [sum_interior]
    simp only [Float64Ops.half, Float64Ops.ofInt, countAt, Float64Ops.roundToInt]
    ring

theorem roundHalfAway_natCast (n : Nat) : roundHalfAway (n : ℚ) = n := by
  have h0 : (0 : ℚ) ≤ (n : ℚ) := Nat.cast_nonneg n
  rw [roundHalfAway, if_pos h0]
  show ⌊(n : ℚ) + 1 / 2⌋ = (n : Int)
  rw [Int.floor_eq_iff]
  constructor
  · push_cast
    linarith
  · push_cast
    linarith

theorem sum_linear_nodes (m c a h : ℚ) (k : Nat) :
    (Finset.range k).sum (fun (j : Nat) => m * (a + ((1 + (j : Int) : Int) : ℚ) * h) + c)
      = k * (m * a + c) + m * h * (k * (k + 1) / 2) := by
  induction k with
  | zero => simp
  | succ k ih =>
    rw [Finset.sum_range_succ, ih]
    push_cast
    ring

end Exact

section ErrorLemmas

variable {α σ : Type}

theorem Quadrature_mismatch [Zero α] [Add α] [Sub α] [Mul α] [Div α] [Float64Ops α]
    (f : Integrand α σ) {left right h : List α}
    (hne : left.length ≠ right.length ∨ left.length ≠ h.length) (env : σ) :
    Quadrature f left right h env = .ok (((0 : α), some GoError.ErrWrongDimensions), env) := by
  simp only [Quadrature, if_pos hne]

theorem Quadrature_no_error [Zero α] [Add α] [Sub α] [Mul α] [Div α] [Float64Ops α]
    (f : Integrand α σ) {left right h : List α}
    (heq : ¬ (left.length ≠ right.length ∨ left.length ≠ h.length)) (env : σ)
    {v : α} {e : GoError} {s : σ} :
    Quadrature f left right h env ≠ .ok ((v, some e), s) := by
  simp only [Quadrature, if_neg heq]
  cases calculate f left right h (left.length : Int) (left.length + 1)
      { k := 0, x := copy (make left.length) left, env := env } with
  | error err => intro hc; cases hc
  | ok r => intro hc; cases hc

end ErrorLemmas

section Tracing

variable {α σ : Type}

theorem foldl_trace {ι : Type} (step : α × List (List α) × σ → ι → α × List (List α) × σ)
    (G : ι → List (List α)) (hstep : ∀ acc i, (step acc i).2.1 = acc.2.1 ++ G i)
    (l : List ι) (acc : α × List (List α) × σ) :
    (l.foldl step acc).2.1 = acc.2.1 ++ l.flatMap G := by
  induction l generalizing acc with
  | nil => simp
  | cons i l ih => rw [List.foldl_cons, ih, hstep, List.flatMap_cons, List.append_assoc]

theorem sampleSum_trace [Zero α] [Add α] [Sub α] [Mul α] (f : Integrand α σ)
    (r : Nat → α) (left right : List α) (points d : Nat) (s : List (List α) × σ) :
    (sampleSum (withTrace f) r left right points d s).2.1
      = s.1 ++ (List.range points).map
          (fun j => samplePoint r left right (d + j * left.length)) := by
  rw [sampleSum, foldl_trace _ (fun j => [samplePoint r left right (d + j * left.length)])
    (fun acc i => rfl)]
  congr 1
  induction (List.range points) with
  | nil => rfl
  | cons j l ih => rw [List.flatMap_cons, List.map_cons, ih]; rfl

theorem sweepAcc_trace [Zero α] [Add α] [Mul α] [Float64Ops α]
    (sub : Integrand α (List (List α) × σ)) (lk rk hk : α) (count : Int) (k : Nat)
    (x : List α) (G : α → List (List α))
    (hsub : ∀ v s, (sub (x.set k v) s).2.1 = s.1 ++ G v) (s : List (List α) × σ) :
    (sweepAcc sub lk rk hk count k x s).2.1
      = s.1 ++ (lk :: ((interior count).map (fun i => lk + Float64Ops.ofInt i * hk)
          ++ [rk])).flatMap G := by
  simp only [sweepAcc]
  rw [hsub, foldl_trace
    (fun (acc : α × List (List α) × σ) i =>
      (acc.1 + (sub (x.set k (lk + Float64Ops.ofInt i * hk)) acc.2).1,
        (sub (x.set k (lk + Float64Ops.ofInt i * hk)) acc.2).2))
    (fun i => G (lk + Float64Ops.ofInt i * hk)) (fun acc i => hsub _ _), hsub]
  simp only [List.flatMap_cons, List.flatMap_append, List.flatMap_map, List.flatMap_nil,
    List.append_nil, List.append_assoc]

theorem take_succ_set {x : List α} {k : Nat} (hk : k < x.length) (v : α) :
    (x.set k v).take (k + 1) = x.take k ++ [v] := by
  apply List.ext_getElem?
  intro j
  by_cases hj : j < k
  · rw [List.getElem?_take_of_lt (by omega), List.getElem?_set_ne (by omega),
      List.getElem?_append_left (by simp; omega), List.getElem?_take_of_lt hj]
  · by_cases hjk : j = k
    · subst hjk
      rw [List.getElem?_take_of_lt (by omega), List.getElem?_set_self hk,
        List.getElem?_append_right (by simp)]
      simp [Nat.min_eq_left (Nat.le_of_lt hk)]
    · rw [List.getElem?_eq_none (by simp; omega), List.getElem?_eq_none (by simp; omega)]

theorem trapezoid_trace [Zero α] [Add α] [Sub α] [Mul α] [Div α] [Float64Ops α]
    (f : Integrand α σ) (left right h : List α) :
    ∀ (d k : Nat) (x : List α) (s : List (List α) × σ), x.length = k + d →
      (trapezoid (withTrace f) left right h d k x s).2.1
        = s.1 ++ (grid left right h d k).map (fun p => x.take k ++ p) := by
  intro d
  induction d with
  | zero =>
    intro k x s hx
    have hxk : x.length ≤ k := by omega
    simp [trapezoid, grid, withTrace, List.take_of_length_le hxk]
  | succ d ih =>
    intro k x s hx
    rw [trapezoid, sweep]
    simp only
    rw [sweepAcc_trace _ _ _ _ _ _ _
      (fun v => (grid left right h d (k + 1)).map (fun p => x.take k ++ v :: p))
      (fun v s => by
        rw [ih (k + 1) (x.set k v) s (by rw [List.length_set]; omega),
          take_succ_set (by omega)]
        simp)]
    rw [grid, nodes, List.map_flatMap]
    simp only [List.map_map]
    rfl

end Tracing

section Grid

variable {α σ : Type}

theorem mem_interior (count i : Int) : i ∈ interior count ↔ (1 ≤ i ∧ i < count) := by
  rw [interior, loopIndices_eq_map, List.mem_map]
  constructor
  · rintro ⟨j, hj, rfl⟩
    rw [List.mem_range] at hj
    omega
  · rintro ⟨h1, h2⟩
    refine ⟨(i - 1).toNat, ?_, ?_⟩
    · rw [List.mem_range]
      omega
    · omega

theorem mem_nodes [Zero α] [Add α] [Sub α] [Mul α] [Div α] [Float64Ops α]
    (left right h : List α) (k : Nat) (v : α) :
    v ∈ nodes left right h k ↔
      (v = left.getD k 0
        ∨ (∃ i : Int, 1 ≤ i ∧ i < countAt left right h k
            ∧ v = left.getD k 0 + Float64Ops.ofInt i * h.getD k 0)
        ∨ v = right.getD k 0) := by
  rw [nodes, List.mem_cons, List.mem_append, List.mem_map, List.mem_singleton]
  constructor
  · rintro (h1 | ⟨i, hi, rfl⟩ | h3)
    · exact Or.inl h1
    · exact Or.inr (Or.inl ⟨i, ((mem_interior _ _).mp hi).1, ((mem_interior _ _).mp hi).2, rfl⟩)
    · exact Or.inr (Or.inr h3)
  · rintro (h1 | ⟨i, hi1, hi2, rfl⟩ | h3)
    · exact Or.inl h1
    · exact Or.inr (Or.inl ⟨i, (mem_interior _ _).mpr ⟨hi1, hi2⟩, rfl⟩)
    · exact Or.inr (Or.inr h3)

/-- Every point of the grid has one coordinate per dimension, a node of that dimension. -/
theorem mem_grid [Zero α] [Add α] [Sub α] [Mul α] [Div α] [Float64Ops α]
    (left right h : List α) :
    ∀ (d k : Nat) (p : List α), p ∈ grid left right h d k →
      p.length = d ∧ ∀ j, j < d → p.getD j 0 ∈ nodes left right h (k + j) := by
  intro d
  induction d with
  | zero =>
    intro k p hp
    rw [grid, List.mem_singleton] at hp
    subst hp
    exact ⟨rfl, fun j hj => absurd hj (Nat.not_lt_zero j)⟩
  | succ d ih =>
    intro k p hp
    rw [grid, List.mem_flatMap] at hp
    obtain ⟨v, hv, hp⟩ := hp
    rw [List.mem_map] at hp
    obtain ⟨q, hq, rfl⟩ := hp
    obtain ⟨hlen, hmem⟩ := ih (k + 1) q hq
    refine ⟨by rw [List.length_cons, hlen], fun j hj => ?_⟩
    cases j with
    | zero => exact hv
    | succ j =>
      have := hmem j (by omega)
      rw [show k + (j + 1) = k + 1 + j by omega]
      exact this

/-- In exact arithmetic with `left[k] ≤ right[k]` and `h[k] > 0`, an interior node is at
least half a step short of the right bound. -/
theorem interior_node_lt (l r w : ℚ) (hw : 0 < w) (i : Int) (hi : i < roundHalfAway ((r - l) / w)) :
    l + (i : ℚ) * w ≤ r - w / 2 := by
  have hs := (roundHalfAway_spec ((r - l) / w)).1
  rw [abs_le] at hs
  have h1 : ((i : ℚ)) + 1 ≤ (roundHalfAway ((r - l) / w) : ℚ) := by exact_mod_cast hi
  have h2 : (i : ℚ) + 1 ≤ (r - l) / w + 1 / 2 := by linarith [hs.1]
  have h3 : ((i : ℚ) + 1) * w ≤ ((r - l) / w + 1 / 2) * w :=
    mul_le_mul_of_nonneg_right h2 hw.le
  have h4 : ((r - l) / w + 1 / 2) * w = (r - l) + w / 2 := by
    field_simp
    ring
  rw [h4] at h3
  linarith

end Grid

section Constant

/-- On a constant integrand every dimension contributes the factor `h[k] * max(count_k, 1)`. -/
theorem trapezoidSpec_const (c : ℚ) (left right h : List ℚ) :
    ∀ (d k : Nat) (x : List ℚ),
      trapezoidSpec (fun _ => c) left right h d k x
        = c * ((List.range d).map
            (fun j => h.getD (k + j) 0 * ((max (countAt left right h (k + j)) 1 : Int) : ℚ))).prod := by
  intro d
  induction d with
  | zero => intro k x; simp [trapezoidSpec]
  | succ d ih =>
    intro k x
    rw [trapezoidSpec]
    simp only [ih]
    rw [Finset.sum_const, Int.card_Ico, List.range_succ_eq_map, List.map_cons, List.prod_cons,
      List.map_map]
    have hmap : (List.range d).map
          ((fun j => h.getD (k + j) 0 * ((max (countAt left right h (k + j)) 1 : Int) : ℚ))
            ∘ Nat.succ)
        = (List.range d).map
          (fun j => h.getD (k + 1 + j) 0 * ((max (countAt left right h (k + 1 + j)) 1 : Int) : ℚ)) := by
      apply List.map_congr_left
      intro j _
      simp only [Function.comp, Nat.succ_eq_add_one]
      rw [show k + (j + 1) = k + 1 + j by omega]
    rw [hmap]
    have hcount : roundHalfAway ((right.getD k 0 - left.getD k 0) / h.getD k 0)
        = countAt left right h k := rfl
    rw [hcount, nsmul_eq_mul]
    simp only [Nat.add_zero]
    have hcard : (((countAt left right h k - 1).toNat : Nat) : ℚ)
        = ((max (countAt left right h k) 1 : Int) : ℚ) - 1 := by
      have : (((countAt left right h k - 1).toNat : Nat) : Int)
          = max (countAt left right h k) 1 - 1 := by omega
      have h2 := congrArg (fun z : Int => (z : ℚ)) this
      simp only [Int.cast_natCast, Int.cast_sub, Int.cast_one] at h2
      exact h2
    rw [hcard]
    generalize ((List.range d).map (fun j => h.getD (k + 1 + j) 0
      * ((max (countAt left right h (k + 1 + j)) 1 : Int) : ℚ))).prod = P
    generalize ((max (countAt left right h k) 1 : Int) : ℚ) = m
    ring

end Constant

section Invariant

variable {α σ : Type}

theorem drop_eq_iff {x left : List α} {k : Nat} :
    x.drop k = left.drop k ↔ ∀ j, k ≤ j → x[j]? = left[j]? := by
  constructor
  · intro hd j hj
    have := congrArg (fun l : List α => l[j - k]?) hd
    simp only [List.getElem?_drop] at this
    rwa [show k + (j - k) = j by omega] at this
  · intro hx
    apply List.ext_getElem?
    intro i
    rw [List.getElem?_drop, List.getElem?_drop]
    exact hx (k + i) (by omega)

theorem entryInvariant_natCast {left x : List α} {k : Nat} {env : σ}
    (hk : k < left.length) (hx : x.length = left.length)
    (hxl : ∀ j, k ≤ j → x[j]? = left[j]?) :
    entryInvariant left ({ k := (k : Int), x := x, env := env } : Frame α σ) := by
  refine ⟨by simp, ?_, hx, ?_⟩
  · show (k : Int) ≤ (left.length : Int) - 1
    omega
  · show x.drop (k : Int).toNat = left.drop (k : Int).toNat
    rw [Int.toNat_ofNat]
    exact drop_eq_iff.mpr hxl

/-- The closure with its assertions, entered as in `calculate_ok`, passes every assertion
and returns what `calculate` returns. -/
theorem calculateAsserting_ok [DecidableEq α] [Zero α] [Add α] [Sub α] [Mul α] [Div α]
    [Float64Ops α] (f : Integrand α σ) {left right h : List α}
    (hr : right.length = left.length) (hh : h.length = left.length) :
    ∀ (d k : Nat) (x : List α) (env : σ) (fuel : Nat),
      k + d + 1 = left.length → x.length = left.length →
      (∀ j, k ≤ j → x[j]? = left[j]?) → d + 1 ≤ fuel →
      calculateAsserting f left right h (left.length : Int) fuel
          { k := (k : Int), x := x, env := env }
        = .ok ((trapezoid f left right h (d + 1) k x env).1,
            { k := (k : Int) - 1, x := x,
              env := (trapezoid f left right h (d + 1) k x env).2 }) := by
  intro d
  induction d with
  | zero =>
    intro k x env fuel hk hx hxl hf
    obtain ⟨fuel, rfl⟩ : ∃ m, fuel = m + 1 := ⟨fuel - 1, by omega⟩
    have hkl : k < left.length := by omega
    have hxk := set_getD_self hkl (hxl k (le_refl _))
    have hcond : ¬ ((k : Int) < (left.length : Int) - 1) := by omega
    rw [calculateAsserting, if_pos (entryInvariant_natCast hkl hx hxl)]
    simp only [index_getD hkl, index_getD (hr ▸ hkl), index_getD (hh ▸ hkl), ok_bind,
      if_neg hcond]
    rw [level_ok (invoke f) f hkl (hr ▸ hkl) (hh ▸ hkl) (hx ▸ hkl) hxk
      (fun z env => invoke_ok f _ _ env)]
    simp only [ok_bind, index_getD (hh ▸ hkl),
      setBound_ok hkl (show k < (x.set k (right.getD k 0)).length by simpa [hx] using hkl),
      List.set_set, hxk]
    rw [if_pos ⟨rfl, rfl⟩]
    rfl
  | succ d ih =>
    intro k x env fuel hk hx hxl hf
    obtain ⟨fuel, rfl⟩ : ∃ m, fuel = m + 1 := ⟨fuel - 1, by omega⟩
    have hkl : k < left.length := by omega
    have hxk := set_getD_self hkl (hxl k (le_refl _))
    have hcond : (k : Int) < (left.length : Int) - 1 := by omega
    rw [calculateAsserting, if_pos (entryInvariant_natCast hkl hx hxl)]
    simp only [index_getD hkl, index_getD (hr ▸ hkl), index_getD (hh ▸ hkl), ok_bind,
      if_pos hcond]
    rw [level_ok _ (trapezoid f left right h (d + 1) (k + 1)) hkl (hr ▸ hkl) (hh ▸ hkl)
      (hx ▸ hkl) hxk
      (fun z env => by
        have := ih (k + 1) (x.set k z) env fuel (by omega) (by simpa using hx)
          (fun j hj => by
            rw [List.getElem?_set_ne (by omega)]
            exact hxl j (by omega))
          (by omega)
        simpa using this)]
    simp only [ok_bind, index_getD (hh ▸ hkl),
      setBound_ok hkl (show k < (x.set k (right.getD k 0)).length by simpa [hx] using hkl),
      List.set_set, hxk]
    rw [if_pos ⟨rfl, rfl⟩]
    rfl

end Invariant

section Claims

variable {α σ : Type}

/-- C1: `Quadrature` returns `ErrWrongDimensions` exactly when `len(left) != len(right)` or
`len(left) != len(h)`; every error return has value `0` and leaves the invocation counter
of the wrapped integrand at `0` (and the integrand's own state untouched); for equal
lengths no error is ever returned, and for equal lengths `n ≥ 1` the call returns with a
nil error. -/
theorem Quadrature_error_iff_wrong_dimensions [Zero α] [Add α] [Sub α] [Mul α] [Div α]
    [Float64Ops α]
    (f : Integrand α σ) (left right h : List α)
    (env : σ) :
    ((∃ v s, Quadrature (withInvokeCounter f) left right h (0, env)
          = .ok ((v, some GoError.ErrWrongDimensions), s))
        ↔ (left.length ≠ right.length ∨ left.length ≠ h.length))
    ∧ (∀ v e s, Quadrature (withInvokeCounter f) left right h (0, env) = .ok ((v, some e), s)
        → v = 0 ∧ e = GoError.ErrWrongDimensions ∧ s = (0, env))
    ∧ (left.length = right.length → left.length = h.length →
        ∀ v e s, Quadrature (withInvokeCounter f) left right h (0, env) = .ok ((v, e), s)
          → e = none)
    ∧ (left.length = right.length → left.length = h.length → 0 < left.length →
        ∃ v s, Quadrature (withInvokeCounter f) left right h (0, env) = .ok ((v, none), s)) := by
  refine ⟨⟨?_, ?_⟩, ?_, ?_, ?_⟩
  · rintro ⟨v, s, hq⟩
    by_contra hne
    exact Quadrature_no_error _ hne _ hq
  · intro hne
    exact ⟨0, (0, env), Quadrature_mismatch _ hne _⟩
  · intro v e s hq
    by_cases hne : left.length ≠ right.length ∨ left.length ≠ h.length
    · rw [Quadrature_mismatch _ hne] at hq
      cases hq
      exact ⟨rfl, rfl, rfl⟩
    · exact absurd hq (Quadrature_no_error _ hne _)
  · intro h1 h2 v e s hq
    cases e with
    | none => rfl
    | some e => exact absurd hq (Quadrature_no_error _ (by simp [← h1, ← h2]) _)
  · intro h1 h2 hn
    exact ⟨_, _, Quadrature_eq_trapezoid _ h1.symm h2.symm hn _⟩

/-- C1, witness: a call with three slices of length one returns a nil error. -/
theorem Quadrature_error_iff_wrong_dimensions_witness :
    ∃ v s, Quadrature (withInvokeCounter (pureIntegrand (fun x : List ℚ => x.headD 0)))
      [0] [1] [1 / 10] (0, ()) = .ok ((v, none), s) :=
  (Quadrature_error_iff_wrong_dimensions (pureIntegrand (fun x : List ℚ => x.headD 0))
    [0] [1] [1 / 10] ()).2.2.2 rfl rfl (by decide)

/-- C2: `MonteCarlo` returns `ErrWrongDimensions` exactly when `len(left) != len(right)`;
in that case the value is `0`, no random number has been drawn and the invocation counter
of the wrapped integrand is still `0`; for equal lengths the call returns with a nil
error. -/
theorem MonteCarlo_error_iff_wrong_dimensions [Zero α] [Add α] [Sub α] [Mul α] [Div α]
    [Float64Ops α] [One α]
    (f : Integrand α σ)
    (left right : List α) (points : Int) (r : Nat → α) (draws : Nat) (env : σ) :
    ((∃ v s, MonteCarlo (withInvokeCounter f) left right points r
          { draws := draws, env := (0, env) }
          = .ok ((v, some GoError.ErrWrongDimensions), s))
        ↔ left.length ≠ right.length)
    ∧ (left.length ≠ right.length →
        MonteCarlo (withInvokeCounter f) left right points r { draws := draws, env := (0, env) }
          = .ok (((0 : α), some GoError.ErrWrongDimensions),
              { draws := draws, env := (0, env) }))
    ∧ (left.length = right.length →
        ∃ v s, MonteCarlo (withInvokeCounter f) left right points r
          { draws := draws, env := (0, env) } = .ok ((v, none), s)) := by
  have hmis : left.length ≠ right.length →
      MonteCarlo (withInvokeCounter f) left right points r { draws := draws, env := (0, env) }
        = .ok (((0 : α), some GoError.ErrWrongDimensions),
            { draws := draws, env := (0, env) }) := by
    intro hne
    simp only [MonteCarlo, if_pos hne]
  refine ⟨⟨?_, ?_⟩, hmis, ?_⟩
  · rintro ⟨v, s, hq⟩ heq
    rw [MonteCarlo_ok _ heq.symm] at hq
    cases hq
  · intro hne
    exact ⟨_, _, hmis hne⟩
  · intro heq
    exact ⟨_, _, MonteCarlo_ok _ heq.symm _ _ _⟩

/-- C2, witness: bounds of lengths 1 and 2 give the error, with no draw and no invocation;
bounds of equal length give a nil error. -/
theorem MonteCarlo_error_iff_wrong_dimensions_witness :
    MonteCarlo (withInvokeCounter (pureIntegrand (fun x : List ℚ => x.headD 0)))
        [0] [1, 2] 5 (fun _ => 1 / 2) { draws := 0, env := (0, ()) }
      = .ok (((0 : ℚ), some GoError.ErrWrongDimensions), { draws := 0, env := (0, ()) })
    ∧ ∃ v s, MonteCarlo (withInvokeCounter (pureIntegrand (fun x : List ℚ => x.headD 0)))
        [0] [1] 5 (fun _ => 1 / 2) { draws := 0, env := (0, ()) } = .ok ((v, none), s) :=
  ⟨(MonteCarlo_error_iff_wrong_dimensions (pureIntegrand (fun x : List ℚ => x.headD 0))
      [0] [1, 2] 5 (fun _ => 1 / 2) 0 ()).2.1 (by decide),
   (MonteCarlo_error_iff_wrong_dimensions (pureIntegrand (fun x : List ℚ => x.headD 0))
      [0] [1] 5 (fun _ => 1 / 2) 0 ()).2.2 rfl⟩

/-- C3: for every integrand, every pair of bound sequences of equal length (whatever the
widths) and every `points ≥ 0`, `MonteCarlo` returns and the invocation counter of
`withInvokeCounter`, started at `0`, ends at `points`. -/
theorem MonteCarlo_invokes_points_times [Zero α] [Add α] [Sub α] [Mul α] [Div α] [Float64Ops α]
    [One α]
    (f : Integrand α σ)
    (left right : List α) (points : Int) (r : Nat → α) (draws : Nat) (env : σ)
    (hlen : left.length = right.length) (hpoints : 0 ≤ points) :
    ∃ v s, MonteCarlo (withInvokeCounter f) left right points r
        { draws := draws, env := (0, env) } = .ok ((v, none), s)
      ∧ s.env.1 = points := by
  refine ⟨_, _, MonteCarlo_ok _ hlen.symm _ _ _, ?_⟩
  simp only [sampleSum_counter]
  omega

/-- C3, witness: a zero-width and a negative-width dimension, seven points. -/
theorem MonteCarlo_invokes_points_times_witness :
    ∃ v s, MonteCarlo (withInvokeCounter (pureIntegrand (fun x : List ℚ => x.headD 0)))
        [0, 3] [0, 1] 7 (fun _ => 1 / 2) { draws := 0, env := (0, ()) } = .ok ((v, none), s)
      ∧ s.env.1 = 7 :=
  MonteCarlo_invokes_points_times (pureIntegrand (fun x : List ℚ => x.headD 0))
    [0, 3] [0, 1] 7 (fun _ => 1 / 2) 0 () rfl (by decide)

/-- C4: for bounds of equal length `n` and `points > 0`, the random source being the stream
`r` read from position `draws`, `MonteCarlo` returns `volume * sum / points` with a nil
error, where `volume` is the product of the widths `right[i] - left[i]` (accumulated from
`1` in index order), `sum` is the sum of `g(p_j)` over `j = 0 … points-1` accumulated from
`0` in sampling order, and `p_j[i] = left[i] + r(draws + j*n + i) * (right[i] - left[i])`;
exactly `n * points` draws are consumed.  The only law of arithmetic used is the
commutativity of the multiplication (the source computes `sum * volume`). -/
theorem MonteCarlo_value [Zero α] [Add α] [Sub α] [Mul α] [Div α] [Float64Ops α] [One α]
    (g : List α → α) (left right : List α) (points : Int)
    (r : Nat → α) (draws : Nat) (hlen : left.length = right.length) (hpoints : 0 < points)
    (hcomm : ∀ a b : α, a * b = b * a) :
    MonteCarlo (pureIntegrand g) left right points r { draws := draws, env := () }
      = .ok ((volumeOf left right
                * (List.range points.toNat).foldl
                    (fun sum j => sum + g (samplePoint r left right (draws + j * left.length)))
                    0
                / Float64Ops.ofInt points, none),
          { draws := draws + left.length * points.toNat, env := () }) := by
  have _ := hpoints
  rw [MonteCarlo_ok _ hlen.symm, sampleSum_pure, hcomm, Nat.mul_comm]

/-- C4, witness: two dimensions, three points, draws `1/(i+2)`. -/
theorem MonteCarlo_value_witness :
    MonteCarlo (pureIntegrand (fun x : List ℚ => x.headD 0)) [0, 5] [1, 7] 3
        (fun i => 1 / ((i : ℚ) + 2)) { draws := 0, env := () }
      = .ok ((volumeOf [0, 5] [1, 7]
                * (List.range (3 : Int).toNat).foldl
                    (fun sum j => sum + (fun x : List ℚ => x.headD 0)
                      (samplePoint (fun i => 1 / ((i : ℚ) + 2)) [0, 5] [1, 7]
                        (0 + j * ([0, 5] : List ℚ).length)))
                    0
                / Float64Ops.ofInt 3, none),
          { draws := 0 + ([0, 5] : List ℚ).length * (3 : Int).toNat, env := () }) :=
  MonteCarlo_value (fun x : List ℚ => x.headD 0) [0, 5] [1, 7] 3
    (fun i => 1 / ((i : ℚ) + 2)) 0 rfl (by decide) mul_comm

/-- C6, counterexample: on `[0,1]` with `h = 0.1` the count is `round(1/0.1) = 10`, so the
claimed number of invocations is `10`, but the integrand is invoked `11` times (both
bounds and nine interior nodes), in exact arithmetic and in binary64 alike. -/
theorem Quadrature_invocations_counterexample :
    ((List.range 1).map (countAt ([0] : List ℚ) [1] [1 / 10])).prod = 10
    ∧ Quadrature (withInvokeCounter (pureIntegrand (fun x : List ℚ => x.headD 0)))
        [0] [1] [1 / 10] (0, ()) = .ok ((1 / 2, none), (11, ()))
    ∧ ((List.range 1).map (countAt ([0] : List F64) [1] [F64.lit (1 / 10)])).prod = 10
    ∧ ∃ v, Quadrature (withInvokeCounter (pureIntegrand (fun x : List F64 => x.headD 0)))
        [0] [1] [F64.lit (1 / 10)] (0, ()) = .ok ((v, none), (11, ())) := by
  refine ⟨by decide!, by decide!, by decide!, ⟨⟨4503599627370497 / 9007199254740992⟩, ?_⟩⟩
  decide!

/-- C6, amended: for every integrand and every input of equal length `n ≥ 1`, `Quadrature`
returns with a nil error and the invocation counter of `withInvokeCounter`, started at
`0`, ends at the product over the dimensions `k` of `max(count_k, 1) + 1`, where
`count_k = int(math.Round((right[k]-left[k]) / h[k]))`. -/
theorem Quadrature_invocations [Zero α] [Add α] [Sub α] [Mul α] [Div α] [Float64Ops α]
    (f : Integrand α σ) (left right h : List α) (env : σ)
    (hr : left.length = right.length) (hh : left.length = h.length)
    (hn : 1 ≤ left.length) :
    ∃ v s, Quadrature (withInvokeCounter f) left right h (0, env) = .ok ((v, none), s)
      ∧ s.1 = ((List.range left.length).map
          (fun k => max (countAt left right h k) 1 + 1)).prod := by
  refine ⟨_, _, Quadrature_eq_trapezoid _ hr.symm hh.symm hn _, ?_⟩
  rw [trapezoid_counter, invocations_eq_prod]
  simp [nodeCount]

/-- C6, witness: `[0,1] × [5,6]` with steps `3/10` and `2`. -/
theorem Quadrature_invocations_witness :
    ∃ v s, Quadrature (withInvokeCounter (pureIntegrand (fun x : List ℚ => x.headD 0)))
        [0, 5] [1, 6] [3 / 10, 2] (0, ()) = .ok ((v, none), s)
      ∧ s.1 = ((List.range ([0, 5] : List ℚ).length).map
          (fun k => max (countAt ([0, 5] : List ℚ) [1, 6] [3 / 10, 2] k) 1 + 1)).prod :=
  Quadrature_invocations (pureIntegrand (fun x : List ℚ => x.headD 0))
    [0, 5] [1, 6] [3 / 10, 2] () rfl rfl (by decide)

/-- C7, counterexample: in binary64 arithmetic `Quadrature` of `f(x) = x` over `[0,1]` with
`h = 0.1` does not return `0.5`. -/
theorem Quadrature_identity_binary64_not_half :
    Quadrature (pureIntegrand (fun x : List F64 => x.headD 0)) [0] [1] [F64.lit (1 / 10)] ()
      ≠ .ok ((⟨1 / 2⟩, none), ()) := by
  decide!

/-- C7, amended: `Quadrature` of `f(x) = x` over `[0,1]` with `h = 0.1` returns a nil error
and, in exact arithmetic, the value `1/2`; in binary64 arithmetic (the step being the
`float64` nearest to `0.1`) it returns `1/2 + 2^-53`, printed `0.5000000000000001`. -/
theorem Quadrature_identity_unit_interval :
    Quadrature (pureIntegrand (fun x : List ℚ => x.headD 0)) [0] [1] [1 / 10] ()
      = .ok ((1 / 2, none), ())
    ∧ Quadrature (pureIntegrand (fun x : List F64 => x.headD 0)) [0] [1] [F64.lit (1 / 10)] ()
      = .ok ((⟨1 / 2 + 1 / 2 ^ 53⟩, none), ()) := by
  constructor <;> decide!

/-- C8, counterexample: `f(x) = x` over `[0,1]` with `h = 0.3` (which does not divide the
width: `count = round(3.33…) = 3`, nodes `0, 0.3, 0.6, 1`).  Even in exact arithmetic the
result is `21/50`, not the integral `1*(1² - 0²)/2 + 0*(1 - 0) = 1/2`; in binary64 it is
not `0.5` either.  And in binary64 a step that divides the width evenly does not help:
`f(x) = x + 0.1` over `[0,1]` with `h = 0.5` gives `0.6000000000000001`, which is neither
the exact integral `1/2 + c` (for `c` the `float64` nearest to `0.1`) nor the value `0.6`
of the formula computed in `float64`. -/
theorem Quadrature_linear_not_exact :
    Quadrature (pureIntegrand (fun x : List ℚ => 1 * x.headD 0 + 0)) [0] [1] [3 / 10] ()
      = .ok ((21 / 50, none), ())
    ∧ (21 / 50 : ℚ) ≠ 1 * (1 ^ 2 - 0 ^ 2) / 2 + 0 * (1 - 0)
    ∧ Quadrature (pureIntegrand (fun x : List F64 => 1 * x.headD 0 + 0))
        [0] [1] [F64.lit (3 / 10)] () ≠ .ok ((⟨1 / 2⟩, none), ())
    ∧ Quadrature (pureIntegrand (fun x : List F64 => 1 * x.headD 0 + F64.lit (1 / 10)))
        [0] [1] [⟨1 / 2⟩] () = .ok ((⟨1351079888211149 / 2251799813685248⟩, none), ())
    ∧ (1351079888211149 / 2251799813685248 : ℚ)
        ≠ 1 * (1 ^ 2 - 0 ^ 2) / 2 + (F64.lit (1 / 10)).val * (1 - 0)
    ∧ (⟨1351079888211149 / 2251799813685248⟩ : F64)
        ≠ 1 * (1 * 1 - 0 * 0) / ⟨2⟩ + F64.lit (1 / 10) * (1 - 0) := by
  refine ⟨by decide!, by norm_num, by decide!, by decide!, by decide!, by decide!⟩

/-- C8, amended: in exact arithmetic, for a 1-D domain `[a,b]` and a step `h > 0` that
divides the width evenly (`b - a = n*h` with `n ≥ 1` intervals), `Quadrature` of the linear
integrand `f(x) = m*x + c` returns the exact integral `m*(b² - a²)/2 + c*(b - a)` with a
nil error. -/
theorem Quadrature_linear_exact (m c a b h : ℚ) (n : Nat) (hn : 1 ≤ n) (hpos : 0 < h)
    (hdiv : b - a = n * h) :
    Quadrature (pureIntegrand (fun x : List ℚ => m * x.headD 0 + c)) [a] [b] [h] ()
      = .ok ((m * (b ^ 2 - a ^ 2) / 2 + c * (b - a), none), ()) := by
  obtain ⟨k, rfl⟩ : ∃ k, n = k + 1 := ⟨n - 1, by omega⟩
  have hb : b = a + ((k + 1 : Nat) : ℚ) * h := by linarith
  have hcount : roundHalfAway ((b - a) / h) = ((k + 1 : Nat) : Int) := by
    rw [hdiv, mul_div_assoc, div_self (ne_of_gt hpos), mul_one, roundHalfAway_natCast]
  rw [Quadrature_eq_trapezoid _ (show [b].length = [a].length from rfl)
    (show [h].length = [a].length from rfl) (Nat.succ_pos 0), trapezoid_pure_eq_spec]
  simp only [List.length_singleton, trapezoidSpec, List.getD_cons_zero, List.set_cons_zero,
    List.headD_cons, hcount]
  rw [sum_Ico_eq_range, sum_linear_nodes]
  have hk : ((((k + 1 : Nat) : Int) - 1).toNat : ℚ) = (k : ℚ) := by
    congr 1
    omega
  rw [hk, hb]
  push_cast
  congr 3
  ring

/-- C8, witness: `f(x) = 2x + 3` over `[0,1]` with `h = 1/10`, ten intervals. -/
theorem Quadrature_linear_exact_witness :
    Quadrature (pureIntegrand (fun x : List ℚ => 2 * x.headD 0 + 3)) [0] [1] [1 / 10] ()
      = .ok ((2 * (1 ^ 2 - 0 ^ 2) / 2 + 3 * (1 - 0), none), ()) :=
  Quadrature_linear_exact 2 3 0 1 (1 / 10) 10 (by decide) (by norm_num) (by norm_num)

/-- C9, counterexample: the degenerate 1-D domain `[1,1]` with `h = 1` and the constant
integrand `1`.  The call returns a nil error, but the estimate is `1`, not `0`, in exact
arithmetic and in binary64 alike; so is the case for a degenerate second dimension of a
2-D box. -/
theorem Quadrature_degenerate_not_zero :
    Quadrature (pureIntegrand (fun _ : List ℚ => 1)) [1] [1] [1] () = .ok ((1, none), ())
    ∧ Quadrature (pureIntegrand (fun _ : List ℚ => 1)) [1] [1] [1] () ≠ .ok ((0, none), ())
    ∧ Quadrature (pureIntegrand (fun _ : List F64 => 1)) [1] [1] [1] () = .ok ((1, none), ())
    ∧ Quadrature (pureIntegrand (sumSquares : List ℚ → ℚ)) [0, 1] [2, 1] [1 / 2, 1 / 2] ()
        = .ok ((19 / 8, none), ()) := by
  refine ⟨by decide!, by decide!, by decide!, by decide!⟩

/-- C9, amended: in exact arithmetic, for inputs of equal length `n ≥ 1` in which
`left[i] == right[i]` for some dimension `i`, `Quadrature` returns a nil error and the
value `T_0(left)` of the recursion, in which dimension `i` has `count_i = 0` and two
coincident half-weighted nodes: `T_i(x) = h[i] * T_(i+1)(x with x[i] := left[i])`.  The
dimension contributes the factor `h[i]`, not zero; in one dimension the estimate is
`h[0] * g(left)`. -/
theorem Quadrature_degenerate_dimension (g : List ℚ → ℚ) (left right h : List ℚ)
    (hr : left.length = right.length) (hh : left.length = h.length)
    (i : Nat) (hi : i < left.length) (hdeg : left.getD i 0 = right.getD i 0) :
    Quadrature (pureIntegrand g) left right h ()
      = .ok ((trapezoidSpec g left right h left.length 0 left, none), ())
    ∧ (∀ d x, trapezoidSpec g left right h (d + 1) i x
        = h.getD i 0 * trapezoidSpec g left right h d (i + 1) (x.set i (left.getD i 0)))
    ∧ (left.length = 1 →
        Quadrature (pureIntegrand g) left right h () = .ok ((h.getD 0 0 * g left, none), ())) := by
  have hq := Quadrature_eq_trapezoid (pureIntegrand g) hr.symm hh.symm (by omega) ()
  rw [trapezoid_pure_eq_spec] at hq
  have hlevel : ∀ d x, trapezoidSpec g left right h (d + 1) i x
      = h.getD i 0 * trapezoidSpec g left right h d (i + 1) (x.set i (left.getD i 0)) := by
    intro d x
    have hcount : roundHalfAway ((left.getD i 0 - left.getD i 0) / h.getD i 0) = 0 := by
      rw [sub_self, zero_div]
      decide!
    rw [trapezoidSpec]
    simp only [← hdeg]
    simp only [hcount]
    rw [Finset.Ico_eq_empty (by decide), Finset.sum_empty]
    ring
  refine ⟨hq, hlevel, ?_⟩
  intro h1
  have hi0 : i = 0 := by omega
  subst hi0
  rw [hq, h1, hlevel 0 left]
  have hset : left.set 0 (left.getD 0 0) = left := set_getD_self hi rfl
  rw [hset]
  rfl

/-- C9, witness: a 2-D box whose second dimension is degenerate. -/
theorem Quadrature_degenerate_dimension_witness :
    Quadrature (pureIntegrand (sumSquares : List ℚ → ℚ)) [0, 1] [2, 1] [1 / 2, 1 / 2] ()
      = .ok ((trapezoidSpec sumSquares [0, 1] [2, 1] [1 / 2, 1 / 2]
          ([0, 1] : List ℚ).length 0 [0, 1], none), ()) :=
  (Quadrature_degenerate_dimension sumSquares [0, 1] [2, 1] [1 / 2, 1 / 2] rfl rfl 1
    (by decide) rfl).1

theorem Quadrature_sumSquares_exact_value :
    Quadrature (pureIntegrand (sumSquares : List ℚ → ℚ)) [0, 0] [2, 3] [1 / 10, 1 / 10] ()
      = .ok ((1301 / 50, none), ()) := by
  decide!

theorem trapezoid_sumSquares_binary64_value :
    (trapezoid (pureIntegrand (sumSquares : List F64 → F64)) [0, 0] [F64.lit 2, F64.lit 3]
        [F64.lit (1 / 10), F64.lit (1 / 10)] 2 0 [0, 0] ()).1
      = ⟨7323978894011271 / 281474976710656⟩ := by
  decide!

theorem Quadrature_sumSquares_binary64_value :
    Quadrature (pureIntegrand (sumSquares : List F64 → F64)) [0, 0] [F64.lit 2, F64.lit 3]
        [F64.lit (1 / 10), F64.lit (1 / 10)] ()
      = .ok ((⟨7323978894011271 / 281474976710656⟩, none), ()) := by
  rw [Quadrature_eq_trapezoid _
    (show [F64.lit 2, F64.lit 3].length = ([0, 0] : List F64).length from rfl)
    (show [F64.lit (1 / 10), F64.lit (1 / 10)].length = ([0, 0] : List F64).length from rfl)
    (Nat.succ_pos 1)]
  show Except.ok ((_, none), ()) = _
  rw [show ([0, 0] : List F64).length = 2 from rfl, trapezoid_sumSquares_binary64_value]

/-- C10: `Quadrature` of `f(x) = Σ x_i²` (main.go `f`) over `[0,2] × [0,3]` with
`h = [0.1, 0.1]` returns, with a nil error, a value whose relative error against the
analytic value `26` is below `1e-2`: the value is `1301/50 = 26.02` in exact arithmetic
and `7323978894011271 / 2^48` (printed `26.020000000000007`) in binary64 arithmetic. -/
theorem Quadrature_sumSquares_relative_error :
    (∃ v : ℚ, Quadrature (pureIntegrand (sumSquares : List ℚ → ℚ)) [0, 0] [2, 3]
        [1 / 10, 1 / 10] () = .ok ((v, none), ()) ∧ |v - 26| / 26 < 1 / 100)
    ∧ (∃ v : F64, Quadrature (pureIntegrand (sumSquares : List F64 → F64)) [0, 0]
        [F64.lit 2, F64.lit 3] [F64.lit (1 / 10), F64.lit (1 / 10)] () = .ok ((v, none), ())
        ∧ |v.val - 26| / 26 < 1 / 100) := by
  constructor
  · refine ⟨1301 / 50, Quadrature_sumSquares_exact_value, ?_⟩
    rw [abs_of_nonneg (by norm_num)]
    norm_num
  · refine ⟨⟨7323978894011271 / 281474976710656⟩, Quadrature_sumSquares_binary64_value, ?_⟩
    show |(7323978894011271 / 281474976710656 : ℚ) - 26| / 26 < 1 / 100
    rw [abs_of_nonneg (by norm_num)]
    norm_num

theorem interior_of_le_one {count : Int} (hc : count ≤ 1) : interior count = [] := by
  have : (count - 1).toNat = 0 := by omega
  rw [interior, this]
  rfl

/-- C13: for inputs of equal length and a dimension `k` whose count
`round((right[k]-left[k])/h[k])` is `0`, every invocation of the closure `calculate` at
level `k` (entered with the buffer agreeing with `left` from coordinate `k` on) evaluates
exactly two nodes, `x[k] = left[k]` and then `x[k] = right[k]`, each with weight `0.5`, and
returns `((0 + 0.5*v1) + 0.5*v2) * h[k]`: at an inner level (`k < n-1`) `v1`, `v2` are the
values returned by the two recursive calls of `calculate` at level `k+1`, at the last level
(`k = n-1`) they are the values of the integrand.  The points at which the whole call
invokes the integrand are the grid whose `k`-th node list is `left[k], right[k]`.  A 1-D
call invokes the integrand exactly twice, at `left` and then at `right`, and returns
`((0 + 0.5*f(left)) + 0.5*f(right)) * h[0]` with a nil error, which in exact arithmetic is
`h[0] * (0.5*f(left) + 0.5*f(right))`, also when the two bounds are equal. -/
theorem Quadrature_zero_count [Zero α] [Add α] [Sub α] [Mul α] [Div α] [Float64Ops α]
    (f : Integrand α σ) (left right h : List α)
    (hr : left.length = right.length) (hh : left.length = h.length)
    (k : Nat) (hk : k < left.length) (hcount : countAt left right h k = 0) :
    (∀ (x : List α) (env : σ) (fuel : Nat), x.length = left.length →
        (∀ j, k ≤ j → x[j]? = left[j]?) → left.length - k ≤ fuel + 1 →
        (k + 1 < left.length →
          ∃ v1 e1 v2 e2,
            calculate f left right h left.length fuel
                { k := (k : Int) + 1, x := x, env := env }
              = .ok (v1, { k := (k : Int), x := x, env := e1 })
            ∧ calculate f left right h left.length fuel
                { k := (k : Int) + 1, x := x.set k (right.getD k 0), env := e1 }
              = .ok (v2, { k := (k : Int), x := x.set k (right.getD k 0), env := e2 })
            ∧ calculate f left right h left.length (fuel + 1)
                { k := (k : Int), x := x, env := env }
              = .ok (((0 + Float64Ops.half * v1) + Float64Ops.half * v2) * h.getD k 0,
                  { k := (k : Int) - 1, x := x, env := e2 }))
        ∧ (k + 1 = left.length →
            calculate f left right h left.length (fuel + 1)
                { k := (k : Int), x := x, env := env }
              = .ok (((0 + Float64Ops.half * (f x env).1)
                    + Float64Ops.half * (f (x.set k (right.getD k 0)) (f x env).2).1)
                      * h.getD k 0,
                  { k := (k : Int) - 1, x := x,
                    env := (f (x.set k (right.getD k 0)) (f x env).2).2 })))
    ∧ (∀ env : σ, ∃ v env', Quadrature (withTrace f) left right h ([], env)
        = .ok ((v, none), (grid left right h left.length 0, env')))
    ∧ nodes left right h k = [left.getD k 0, right.getD k 0]
    ∧ (left.length = 1 → ∀ env : σ,
        Quadrature (withTrace f) left right h ([], env)
          = .ok ((((0 + Float64Ops.half * (f left env).1)
                + Float64Ops.half * (f right (f left env).2).1) * h.getD 0 0, none),
              ([left, right], (f right (f left env).2).2)))
    ∧ (∀ (left right h : List α) (k : Nat), countAt left right h k = 0 →
        nodes left right h k = [left.getD k 0, right.getD k 0])
    ∧ (∀ (τ : Type) (sub : Integrand α τ) (lk rk hk : α) (k : Nat) (x : List α) (env : τ),
        sweep sub lk rk hk 0 k x env
          = (((0 + Float64Ops.half * (sub (x.set k lk) env).1)
                + Float64Ops.half * (sub (x.set k rk) (sub (x.set k lk) env).2).1) * hk,
              (sub (x.set k rk) (sub (x.set k lk) env).2).2))
    ∧ (∀ (q : List ℚ → ℚ) (l r w : ℚ), roundHalfAway ((r - l) / w) = 0 →
        Quadrature (pureIntegrand q) [l] [r] [w] ()
          = .ok ((w * (1 / 2 * q [l] + 1 / 2 * q [r]), none), ()))
    ∧ (∀ (q : List ℚ → ℚ) (l w : ℚ),
        Quadrature (pureIntegrand q) [l] [l] [w] ()
          = .ok ((w * (1 / 2 * q [l] + 1 / 2 * q [l]), none), ())) := by
  have hq : ∀ (q : List ℚ → ℚ) (l r w : ℚ), roundHalfAway ((r - l) / w) = 0 →
      Quadrature (pureIntegrand q) [l] [r] [w] ()
        = .ok ((w * (1 / 2 * q [l] + 1 / 2 * q [r]), none), ()) := by
    intro q l r w hc
    rw [Quadrature_eq_trapezoid _ (show [r].length = [l].length from rfl)
      (show [w].length = [l].length from rfl) (Nat.succ_pos 0), trapezoid_pure_eq_spec]
    simp only [List.length_singleton, trapezoidSpec, List.getD_cons_zero, List.set_cons_zero,
      hc]
    rw [Finset.Ico_eq_empty (by decide), Finset.sum_empty, add_zero]
  have hnodes : ∀ (left right h : List α) (k : Nat), countAt left right h k = 0 →
      nodes left right h k = [left.getD k 0, right.getD k 0] := by
    intro left right h k hc
    rw [nodes, hc, interior_of_le_one (by decide)]
    rfl
  have hsweep : ∀ (τ : Type) (sub : Integrand α τ) (lk rk hk : α) (k : Nat) (x : List α)
      (env : τ), sweep sub lk rk hk 0 k x env
        = (((0 + Float64Ops.half * (sub (x.set k lk) env).1)
              + Float64Ops.half * (sub (x.set k rk) (sub (x.set k lk) env).2).1) * hk,
            (sub (x.set k rk) (sub (x.set k lk) env).2).2) := by
    intro τ sub lk rk hk k x env
    simp only [sweep, sweepAcc, interior_of_le_one (show (0 : Int) ≤ 1 by decide),
      List.foldl_nil]
  refine ⟨?_, ?_, hnodes left right h k hcount, ?_, hnodes, hsweep, hq, ?_⟩
  · intro x env fuel hx hxl hfuel
    have hxk := set_getD_self hk (hxl k (le_refl _))
    constructor
    · intro hlt
      obtain ⟨d, hd⟩ : ∃ d, left.length = k + 1 + d + 1 := ⟨left.length - k - 2, by omega⟩
      have hsub : ∀ (z : α) (e : σ),
          calculate f left right h left.length fuel
              { k := (k : Int) + 1, x := x.set k z, env := e }
            = .ok ((trapezoid f left right h (d + 1) (k + 1) (x.set k z) e).1,
                { k := (k : Int), x := x.set k z,
                  env := (trapezoid f left right h (d + 1) (k + 1) (x.set k z) e).2 }) := by
        intro z e
        have := calculate_ok f hr.symm hh.symm d (k + 1) (x.set k z) e fuel (by omega)
          (by simpa using hx)
          (fun j hj => by
            rw [List.getElem?_set_ne (by omega)]
            exact hxl j (by omega))
          (by omega)
        simpa using this
      have h1 := hsub (left.getD k 0) env
      rw [hxk] at h1
      refine ⟨_, _, _, _, h1, hsub (right.getD k 0) _, ?_⟩
      rw [calculate_ok f hr.symm hh.symm (d + 1) k x env (fuel + 1) (by omega) hx hxl
        (by omega)]
      rw [trapezoid, hcount, hsweep, hxk]
    · intro heq
      rw [calculate_ok f hr.symm hh.symm 0 k x env (fuel + 1) (by omega) hx hxl (by omega)]
      rw [trapezoid, hcount, hsweep, hxk]
      rfl
  · intro env
    refine ⟨(trapezoid (withTrace f) left right h left.length 0 left ([], env)).1,
      (trapezoid (withTrace f) left right h left.length 0 left ([], env)).2.2, ?_⟩
    rw [Quadrature_eq_trapezoid _ hr.symm hh.symm (by omega)]
    have ht := trapezoid_trace f left right h left.length 0 left ([], env) (by omega)
    simp only [List.take_zero, List.nil_append, List.map_id'] at ht
    rw [← ht]
  · intro h1 env
    have hk0 : k = 0 := by omega
    subst hk0
    obtain ⟨a, rfl⟩ := List.length_eq_one.mp h1
    obtain ⟨b, rfl⟩ := List.length_eq_one.mp (hr ▸ h1 : right.length = 1)
    obtain ⟨s, rfl⟩ := List.length_eq_one.mp (hh ▸ h1 : h.length = 1)
    rw [Quadrature_eq_trapezoid _ (show [b].length = [a].length from rfl)
      (show [s].length = [a].length from rfl) (Nat.succ_pos 0)]
    simp only [List.length_singleton, trapezoid, hcount, hsweep]
    rfl
  · intro q l w
    apply hq
    rw [sub_self, zero_div]
    decide!

/-- C13, witness: the outer level of a 2-D call on `[0,1] × [5,6]` with `h = (3, 1/2)`:
`round(1/3) = 0`, so `calculate` at level `0` makes two recursive calls, with `x[0] = 0` and
with `x[0] = 1`, and returns half their sum times `3`; and the 1-D call on `[0,1]` with
`h = 3`. -/
theorem Quadrature_zero_count_witness :
    (∃ v1 e1 v2 e2,
      calculate (pureIntegrand (sumSquares : List ℚ → ℚ)) [0, 5] [1, 6] [3, 1 / 2] 2 1
          { k := 1, x := [0, 5], env := () }
        = .ok (v1, { k := 0, x := [0, 5], env := e1 })
      ∧ calculate (pureIntegrand (sumSquares : List ℚ → ℚ)) [0, 5] [1, 6] [3, 1 / 2] 2 1
          { k := 1, x := [1, 5], env := e1 }
        = .ok (v2, { k := 0, x := [1, 5], env := e2 })
      ∧ calculate (pureIntegrand (sumSquares : List ℚ → ℚ)) [0, 5] [1, 6] [3, 1 / 2] 2 2
          { k := 0, x := [0, 5], env := () }
        = .ok (((0 + 1 / 2 * v1) + 1 / 2 * v2) * 3, { k := -1, x := [0, 5], env := e2 }))
    ∧ Quadrature (withTrace (pureIntegrand (sumSquares : List ℚ → ℚ))) [0] [1] [3] ([], ())
      = .ok ((((0 + 1 / 2 * sumSquares [0]) + 1 / 2 * sumSquares [1]) * 3, none),
          ([[0], [1]], ())) :=
  ⟨((Quadrature_zero_count (pureIntegrand (sumSquares : List ℚ → ℚ))
      [0, 5] [1, 6] [3, 1 / 2] rfl rfl 0 (by decide) (by decide!)).1
        [0, 5] () 1 rfl (fun _ _ => rfl) (by decide)).1 (by decide),
    (Quadrature_zero_count (pureIntegrand (sumSquares : List ℚ → ℚ))
      [0] [1] [3] rfl rfl 0 (by decide) (by decide!)).2.2.2.1 rfl ()⟩

/-- C14: for inputs of equal length `n ≥ 1` and every integrand, the sequence of points at
which `Quadrature` invokes the integrand is `grid left right h n 0`: the Cartesian product
of the node lists `nodes left right h k`
(`left[k], left[k]+1*h[k], …, left[k]+(count_k-1)*h[k], right[k]`) in lexicographic order,
dimension `0` most significant.  The sequence is a function of `(left, right, h)` alone:
it is the same for every integrand and every initial state of the integrand. -/
theorem Quadrature_evaluation_points [Zero α] [Add α] [Sub α] [Mul α] [Div α]
    [Float64Ops α] (f : Integrand α σ) (left right h : List α) (env : σ)
    (hr : left.length = right.length) (hh : left.length = h.length)
    (hn : 1 ≤ left.length) :
    ∃ v env', Quadrature (withTrace f) left right h ([], env)
      = .ok ((v, none), (grid left right h left.length 0, env')) := by
  refine ⟨(trapezoid (withTrace f) left right h left.length 0 left ([], env)).1,
    (trapezoid (withTrace f) left right h left.length 0 left ([], env)).2.2, ?_⟩
  rw [Quadrature_eq_trapezoid _ hr.symm hh.symm hn]
  have ht := trapezoid_trace f left right h left.length 0 left ([], env) (by omega)
  simp only [List.take_zero, List.nil_append, List.map_id'] at ht
  rw [← ht]

theorem grid_example :
    grid ([0, 5] : List ℚ) [1, 6] [3 / 10, 2] 2 0
      = [[0, 5], [0, 6], [3 / 10, 5], [3 / 10, 6], [3 / 5, 5], [3 / 5, 6], [1, 5], [1, 6]] := by
  decide!

/-- C14, witness: the box `[0,1] × [5,6]` with steps `3/10` and `2`: nodes `0, 0.3, 0.6, 1`
in dimension 0 and `5, 6` in dimension 1, eight points. -/
theorem Quadrature_evaluation_points_witness :
    ∃ v env', Quadrature (withTrace (pureIntegrand (sumSquares : List ℚ → ℚ)))
        [0, 5] [1, 6] [3 / 10, 2] ([], ())
      = .ok ((v, none),
          ([[0, 5], [0, 6], [3 / 10, 5], [3 / 10, 6], [3 / 5, 5], [3 / 5, 6], [1, 5], [1, 6]],
            env')) :=
  grid_example ▸
    Quadrature_evaluation_points (pureIntegrand (sumSquares : List ℚ → ℚ))
      [0, 5] [1, 6] [3 / 10, 2] () rfl rfl (by decide)

theorem index_ok_iff (s : List α) (k : Int) :
    (∃ v, index s k = .ok v) ↔ (0 ≤ k ∧ k < s.length) := by
  unfold index
  by_cases hk : 0 ≤ k
  · rw [if_pos hk]
    by_cases hlt : k.toNat < s.length
    · rw [List.getElem?_eq_getElem hlt]
      exact ⟨fun _ => ⟨hk, by omega⟩, fun _ => ⟨_, rfl⟩⟩
    · rw [List.getElem?_eq_none (by omega)]
      constructor
      · rintro ⟨v, hv⟩
        cases hv
      · rintro ⟨_, h2⟩
        omega
  · rw [if_neg hk]
    constructor
    · rintro ⟨v, hv⟩
      cases hv
    · rintro ⟨h1, _⟩
      exact absurd h1 hk

theorem assign_ok_iff (s : List α) (k : Int) (v : α) :
    (∃ s', assign s k v = .ok s') ↔ (0 ≤ k ∧ k < s.length) := by
  unfold assign
  by_cases hk : 0 ≤ k ∧ k.toNat < s.length
  · rw [if_pos hk]
    exact ⟨fun _ => ⟨hk.1, by omega⟩, fun _ => ⟨_, rfl⟩⟩
  · rw [if_neg hk]
    constructor
    · rintro ⟨s', hs⟩
      cases hs
    · rintro ⟨h1, h2⟩
      exact absurd ⟨h1, by omega⟩ hk

/-- C16: an index expression or an assignment `s[k]` succeeds exactly when
`0 ≤ k ≤ len(s) - 1` and is the fault `indexOutOfRange` otherwise; a fault ends the call.
For inputs with `len(left) == len(right) == len(h) == n ≥ 1`, `Quadrature` ends with no
fault, hence with every access to `left`, `right`, `h` and `x` in range, and returns a nil
error. -/
theorem Quadrature_no_fault [Zero α] [Add α] [Sub α] [Mul α] [Div α] [Float64Ops α]
    (f : Integrand α σ) (left right h : List α) (env : σ)
    (hr : left.length = right.length) (hh : left.length = h.length)
    (hn : 1 ≤ left.length) :
    (∃ v env', Quadrature f left right h env = .ok ((v, none), env'))
    ∧ (∀ fault, Quadrature f left right h env ≠ .error fault)
    ∧ (∀ (s : List α) (k : Int), (∃ v, index s k = .ok v) ↔ (0 ≤ k ∧ k ≤ (s.length : Int) - 1))
    ∧ (∀ (s : List α) (k : Int),
        (0 ≤ k ∧ k ≤ (s.length : Int) - 1) ∨ index s k = .error Fault.indexOutOfRange)
    ∧ (∀ (s : List α) (k : Int) (v : α),
        (∃ s', assign s k v = .ok s') ↔ (0 ≤ k ∧ k ≤ (s.length : Int) - 1))
    ∧ (∀ (s : List α) (k : Int) (v : α),
        (0 ≤ k ∧ k ≤ (s.length : Int) - 1) ∨ assign s k v = .error Fault.indexOutOfRange) := by
  have hq := Quadrature_eq_trapezoid f hr.symm hh.symm hn env
  refine ⟨⟨_, _, hq⟩, ?_, ?_, ?_, ?_, ?_⟩
  · intro fault hc
    rw [hq] at hc
    cases hc
  · intro s k
    rw [index_ok_iff]
    constructor <;> rintro ⟨h1, h2⟩ <;> exact ⟨h1, by omega⟩
  · intro s k
    by_cases hk : 0 ≤ k ∧ k ≤ (s.length : Int) - 1
    · exact Or.inl hk
    · right
      unfold index
      by_cases h0 : 0 ≤ k
      · rw [if_pos h0, List.getElem?_eq_none (by omega)]
      · rw [if_neg h0]
  · intro s k v
    rw [assign_ok_iff]
    constructor <;> rintro ⟨h1, h2⟩ <;> exact ⟨h1, by omega⟩
  · intro s k v
    by_cases hk : 0 ≤ k ∧ k ≤ (s.length : Int) - 1
    · exact Or.inl hk
    · right
      unfold assign
      rw [if_neg (by omega)]

/-- C16, witness: a 2-D call. -/
theorem Quadrature_no_fault_witness :
    ∃ v env', Quadrature (pureIntegrand (sumSquares : List ℚ → ℚ))
        [0, 5] [1, 6] [3 / 10, 2] () = .ok ((v, none), env') :=
  (Quadrature_no_fault (pureIntegrand (sumSquares : List ℚ → ℚ))
    [0, 5] [1, 6] [3 / 10, 2] () rfl rfl (by decide)).1

theorem nodes_length [Zero α] [Add α] [Sub α] [Mul α] [Div α] [Float64Ops α]
    (left right h : List α) (k : Nat) :
    ((nodes left right h k).length : Int) = max (countAt left right h k) 1 + 1 := by
  rw [nodes, interior]
  simp only [List.length_cons, List.length_append, List.length_map, loopIndices_length,
    List.length_nil]
  omega

/-- C17: for every integrand and every input of equal length `n ≥ 1`, `Quadrature` returns
with a nil error having advanced the invocation counter of `withInvokeCounter` by exactly
the product over the dimensions `k` of `max(count_k, 1) + 1`, where
`count_k = int(math.Round((right[k]-left[k]) / h[k]))`; that factor is the length of the
node list of dimension `k` (both bounds and `max(count_k, 1) - 1` interior nodes) and is
never less than two. -/
theorem Quadrature_invocation_count [Zero α] [Add α] [Sub α] [Mul α] [Div α] [Float64Ops α]
    (f : Integrand α σ) (left right h : List α) (c0 : Int) (env : σ)
    (hr : left.length = right.length) (hh : left.length = h.length)
    (hn : 1 ≤ left.length) :
    (∃ v env', Quadrature (withInvokeCounter f) left right h (c0, env)
        = .ok ((v, none),
            (c0 + ((List.range left.length).map
              (fun k => max (countAt left right h k) 1 + 1)).prod, env')))
    ∧ ∀ k, ((nodes left right h k).length : Int) = max (countAt left right h k) 1 + 1
        ∧ ((interior (countAt left right h k)).length : Int)
            = max (countAt left right h k) 1 - 1
        ∧ 2 ≤ max (countAt left right h k) 1 + 1 := by
  refine ⟨⟨(trapezoid (withInvokeCounter f) left right h left.length 0 left (c0, env)).1,
    (trapezoid (withInvokeCounter f) left right h left.length 0 left (c0, env)).2.2, ?_⟩, ?_⟩
  · rw [Quadrature_eq_trapezoid _ hr.symm hh.symm hn]
    have hc := trapezoid_counter f left right h left.length 0 left (c0, env)
    rw [invocations_eq_prod] at hc
    simp only [nodeCount, Nat.zero_add] at hc
    rw [← hc]
  · intro k
    refine ⟨nodes_length left right h k, ?_, by omega⟩
    rw [interior, loopIndices_length]
    omega

theorem invocation_count_example :
    (0 : Int) + ((List.range ([0] : List F64).length).map
      (fun k => max (countAt ([0] : List F64) [1] [F64.lit (1 / 5)] k) 1 + 1)).prod = 6 := by
  decide!

/-- C17, witness: the first line of the driver's table, `[0,1]` with `h = 0.2` in binary64
arithmetic, makes `6` invocations. -/
theorem Quadrature_invocation_count_witness :
    ∃ v env', Quadrature (withInvokeCounter (pureIntegrand (sumSquares : List F64 → F64)))
        [0] [1] [F64.lit (1 / 5)] (0, ()) = .ok ((v, none), (6, env')) :=
  invocation_count_example ▸
    (Quadrature_invocation_count (pureIntegrand (sumSquares : List F64 → F64))
      [0] [1] [F64.lit (1 / 5)] 0 () rfl rfl (by decide)).1

/-- C20: on the zero-dimensional input the length validation of `Quadrature` passes and
`calculate` faults at its first step, the read `right[0]` of an empty slice: the call ends
with the fault `indexOutOfRange` and returns nothing.  `MonteCarlo` on empty bounds returns
with a nil error: the volume is `1`, no random number is drawn, and the integrand is
invoked `points` times (not at all when `points` is negative), each time on the empty
point. -/
theorem zero_dimensional [Zero α] [One α] [Add α] [Sub α] [Mul α] [Div α] [Float64Ops α]
    (f : Integrand α σ) (env : σ) (points : Int) (r : Nat → α) (draws : Nat) (c0 : Int) :
    Quadrature f [] [] [] env = .error Fault.indexOutOfRange
    ∧ (∀ (fuel : Nat) (c : Frame α σ),
        calculate f [] [] [] 0 (fuel + 1) c = .error Fault.indexOutOfRange)
    ∧ index ([] : List α) 0 = .error Fault.indexOutOfRange
    ∧ volumeOf ([] : List α) [] = 1
    ∧ (∃ sum env', MonteCarlo (withTrace f) [] [] points r ⟨draws, ([], env)⟩
        = .ok ((sum * 1 / Float64Ops.ofInt points, none),
            ⟨draws, (List.replicate points.toNat [], env')⟩))
    ∧ (∃ v env', MonteCarlo (withInvokeCounter f) [] [] points r ⟨draws, (c0, env)⟩
        = .ok ((v, none), ⟨draws, (c0 + points.toNat, env')⟩)) := by
  refine ⟨rfl, fun fuel c => ?_, rfl, rfl, ?_, ?_⟩
  · simp [calculate, index]
    rfl
  · refine ⟨(sampleSum (withTrace f) r [] [] points.toNat draws ([], env)).1,
      (sampleSum (withTrace f) r [] [] points.toNat draws ([], env)).2.2, ?_⟩
    rw [MonteCarlo_ok (withTrace f) (show ([] : List α).length = ([] : List α).length from rfl)]
    have ht := sampleSum_trace f r [] [] points.toNat draws ([], env)
    have hm : (List.range points.toNat).map
        (fun j => samplePoint r ([] : List α) [] (draws + j * ([] : List α).length))
        = List.replicate points.toNat [] := by
      have hp : ∀ d, samplePoint r ([] : List α) [] d = [] := fun _ => rfl
      simp only [hp]
      induction points.toNat with
      | zero => rfl
      | succ m ih => rw [List.range_succ, List.map_append, ih, List.replicate_succ']; rfl
    rw [hm, List.nil_append] at ht
    rw [← ht]
    rfl
  · refine ⟨(sampleSum (withInvokeCounter f) r [] [] points.toNat draws (c0, env)).1
        * volumeOf [] [] / Float64Ops.ofInt points,
      (sampleSum (withInvokeCounter f) r [] [] points.toNat draws (c0, env)).2.2, ?_⟩
    rw [MonteCarlo_ok (withInvokeCounter f)
      (show ([] : List α).length = ([] : List α).length from rfl)]
    have hc := sampleSum_counter f r [] [] points.toNat draws c0 env
    rw [← hc]
    rfl

/-- C12, counterexample: in exact arithmetic with undefined results, `MonteCarlo` with
`points = 0` on the unit interval returns a nil error and invokes the integrand zero
times, but its value `0*1/float64(0)` is undefined: the final division is a division by
zero. -/
theorem MonteCarlo_zero_points_undefined :
    (Float64Ops.ofInt 0 : Checked) = 0
    ∧ MonteCarlo (withInvokeCounter (pureIntegrand (sumSquares : List Checked → Checked)))
        [0] [1] 0 (fun _ => 0) ⟨0, (0, ())⟩
      = .ok ((⟨none⟩, none), ⟨0, (0, ())⟩) := by
  decide!

/-- C12, amended: for bounds of equal length and `points = 0`, `MonteCarlo` returns a nil
error, invokes the integrand zero times and draws no random number, and returns the value
of `0 * volume / float64(0)`, a quotient whose divisor is zero; in exact arithmetic with
undefined results the returned value is undefined, whatever the volume. -/
theorem MonteCarlo_zero_points [Zero α] [One α] [Add α] [Sub α] [Mul α] [Div α]
    [Float64Ops α] (f : Integrand α σ) (left right : List α) (r : Nat → α) (draws : Nat)
    (c0 : Int) (env : σ) (hr : left.length = right.length) :
    MonteCarlo (withInvokeCounter f) left right 0 r ⟨draws, (c0, env)⟩
      = .ok ((0 * volumeOf left right / Float64Ops.ofInt 0, none), ⟨draws, (c0, env)⟩)
    ∧ (Float64Ops.ofInt 0 : ℚ) = 0 ∧ (Float64Ops.ofInt 0 : F64) = 0
    ∧ (Float64Ops.ofInt 0 : Checked) = 0
    ∧ (∀ a : Checked, a / 0 = ⟨none⟩) := by
  refine ⟨?_, by decide!, by decide!, by decide!, ?_⟩
  · rw [MonteCarlo_ok (withInvokeCounter f) hr.symm]
    simp only [Int.toNat_zero, Nat.zero_mul, Nat.add_zero, sampleSum, List.range_zero,
      List.foldl_nil]
  · intro a
    show Checked.div a ⟨some 0⟩ = ⟨none⟩
    unfold Checked.div
    cases a.val <;> simp

/-- C12, witness: the unit interval, with undefined results tracked. -/
theorem MonteCarlo_zero_points_witness :
    MonteCarlo (withInvokeCounter (pureIntegrand (sumSquares : List Checked → Checked)))
        [0] [1] 0 (fun _ => 0) ⟨0, (0, ())⟩
      = .ok ((0 * volumeOf ([0] : List Checked) [1] / Float64Ops.ofInt 0, none),
          ⟨0, (0, ())⟩) :=
  (MonteCarlo_zero_points (pureIntegrand (sumSquares : List Checked → Checked))
    [0] [1] (fun _ => 0) 0 0 () rfl).1

theorem samplePoint_getD (r : Nat → ℚ) (left right : List ℚ) (d i : Nat)
    (hi : i < left.length) :
    (samplePoint r left right d).getD i 0
      = left.getD i 0 + r (d + i) * (right.getD i 0 - left.getD i 0) := by
  rw [samplePoint, List.getD_eq_getElem?_getD, List.getElem?_map,
    List.getElem?_range hi]
  rfl

/-- C11, counterexample: with a draw in `[0,1)` the sample coordinate can equal `right[i]`.
On a zero-width interval `left = right = [1]` the sample point is `[1]`, and `[1,1)` is
empty; in binary64 arithmetic on `[1,2]` the draw `1 - 2^-53` gives
`1 + (1 - 2^-53)*(2 - 1)`, which rounds to `2`, so the integrand is invoked at
`right`. -/
theorem MonteCarlo_sample_reaches_right :
    MonteCarlo (withTrace (pureIntegrand (sumSquares : List ℚ → ℚ))) [1] [1] 1 (fun _ => 0)
        ⟨0, ([], ())⟩ = .ok ((0, none), ⟨1, ([[1]], ())⟩)
    ∧ ((0 : ℚ) ≤ 1 - 1 / 2 ^ 53 ∧ (1 : ℚ) - 1 / 2 ^ 53 < 1
        ∧ roundF64 (1 - 1 / 2 ^ 53) = 1 - 1 / 2 ^ 53)
    ∧ MonteCarlo (withTrace (pureIntegrand (sumSquares : List F64 → F64))) [⟨1⟩] [⟨2⟩] 1
        (fun _ => ⟨1 - 1 / 2 ^ 53⟩) ⟨0, ([], ())⟩
      = .ok ((⟨4⟩, none), ⟨1, ([[⟨2⟩]], ())⟩) :=
  ⟨by decide!, by decide!, by decide!⟩

/-- C11, amended: in exact arithmetic, for bounds of equal length and draws in `[0,1)`,
`MonteCarlo` invokes the integrand at the points `samplePoint`, each of length `n`, and
for every dimension `i` with `left[i] < right[i]` the `i`-th coordinate lies in
`[left[i], right[i])`; in a dimension with `left[i] = right[i]` it is `left[i]`. -/
theorem MonteCarlo_sample_in_interval (f : Integrand ℚ σ) (left right : List ℚ)
    (points : Int) (r : Nat → ℚ) (draws : Nat) (env : σ)
    (hr : left.length = right.length) (hdraw : ∀ j, 0 ≤ r j ∧ r j < 1) :
    (∃ v env', MonteCarlo (withTrace f) left right points r ⟨draws, ([], env)⟩
      = .ok ((v, none), ⟨draws + points.toNat * left.length,
          ((List.range points.toNat).map
            (fun j => samplePoint r left right (draws + j * left.length)), env')⟩))
    ∧ ∀ d, (samplePoint r left right d).length = left.length
        ∧ ∀ i, i < left.length →
          (left.getD i 0 < right.getD i 0 →
            left.getD i 0 ≤ (samplePoint r left right d).getD i 0
              ∧ (samplePoint r left right d).getD i 0 < right.getD i 0)
          ∧ (left.getD i 0 = right.getD i 0 →
            (samplePoint r left right d).getD i 0 = left.getD i 0) := by
  constructor
  · refine ⟨(sampleSum (withTrace f) r left right points.toNat draws ([], env)).1
        * volumeOf left right / Float64Ops.ofInt points,
      (sampleSum (withTrace f) r left right points.toNat draws ([], env)).2.2, ?_⟩
    rw [MonteCarlo_ok (withTrace f) hr.symm]
    have ht := sampleSum_trace f r left right points.toNat draws ([], env)
    rw [List.nil_append] at ht
    rw [← ht]
  · intro d
    refine ⟨by simp [samplePoint], fun i hi => ?_⟩
    rw [samplePoint_getD r left right d i hi]
    obtain ⟨h0, h1⟩ := hdraw (d + i)
    refine ⟨fun hlt => ⟨?_, ?_⟩, fun heq => ?_⟩
    · have := mul_nonneg h0 (sub_nonneg.mpr hlt.le)
      linarith
    · have := mul_lt_mul_of_pos_right h1 (sub_pos.mpr hlt)
      linarith
    · rw [heq, sub_self, mul_zero, add_zero]

/-- C11, witness: two samples of `[0,1] × [5,6]` with every draw equal to `1/2`. -/
theorem MonteCarlo_sample_in_interval_witness :
    ∃ v env', MonteCarlo (withTrace (pureIntegrand (sumSquares : List ℚ → ℚ)))
        [0, 5] [1, 6] 2 (fun _ => 1 / 2) ⟨0, ([], ())⟩
      = .ok ((v, none), ⟨0 + (2 : Int).toNat * ([0, 5] : List ℚ).length,
          ((List.range (2 : Int).toNat).map
            (fun j => samplePoint (fun _ => 1 / 2) [0, 5] [1, 6]
              (0 + j * ([0, 5] : List ℚ).length)), env')⟩) :=
  (MonteCarlo_sample_in_interval (pureIntegrand (sumSquares : List ℚ → ℚ))
    [0, 5] [1, 6] 2 (fun _ => 1 / 2) 0 () rfl (fun _ => by norm_num)).1

/-- C18, counterexample: in binary64 arithmetic on `[2^53, 2^53 + 4]` with `h = 1` the
count is `4` and the interior node `i = 3`, `2^53 + 3*1`, rounds to `2^53 + 4`:
the fourth evaluation point is `right`, not strictly less than `right`. -/
theorem Quadrature_interior_node_reaches_right :
    countAt ([⟨9007199254740992⟩] : List F64) [⟨9007199254740996⟩] [1] 0 = 4
    ∧ ((⟨9007199254740992⟩ : F64) + Float64Ops.ofInt 3 * 1 = ⟨9007199254740996⟩)
    ∧ Quadrature (withTrace (pureIntegrand (fun _ : List F64 => (0 : F64))))
        [⟨9007199254740992⟩] [⟨9007199254740996⟩] [1] ([], ())
      = .ok ((0, none),
          ([[⟨9007199254740992⟩], [⟨9007199254740992⟩], [⟨9007199254740994⟩],
            [⟨9007199254740996⟩], [⟨9007199254740996⟩]], ())) :=
  ⟨by decide!, by decide!, by decide!⟩

/-- C18, amended: in exact arithmetic, for inputs of equal length `n ≥ 1` with
`left[k] ≤ right[k]` and `h[k] > 0` for every `k`, every point at which `Quadrature`
invokes the integrand has `n` coordinates with `left[k] ≤ x[k] ≤ right[k]`, and every
interior node `left[k] + i*h[k]` (`1 ≤ i < count_k`) is at most `right[k] - h[k]/2`, hence
strictly less than `right[k]`. -/
theorem Quadrature_points_in_box (f : Integrand ℚ σ) (left right h : List ℚ) (env : σ)
    (hr : left.length = right.length) (hh : left.length = h.length)
    (hn : 1 ≤ left.length)
    (hbox : ∀ k, k < left.length → left.getD k 0 ≤ right.getD k 0 ∧ 0 < h.getD k 0) :
    (∃ v pts env', Quadrature (withTrace f) left right h ([], env)
        = .ok ((v, none), (pts, env'))
      ∧ ∀ p ∈ pts, p.length = left.length
          ∧ ∀ k, k < left.length → left.getD k 0 ≤ p.getD k 0 ∧ p.getD k 0 ≤ right.getD k 0)
    ∧ ∀ k, k < left.length → ∀ i : Int, 1 ≤ i → i < countAt left right h k →
        left.getD k 0 + (i : ℚ) * h.getD k 0 ≤ right.getD k 0 - h.getD k 0 / 2
        ∧ left.getD k 0 + (i : ℚ) * h.getD k 0 < right.getD k 0 := by
  have hint : ∀ k, k < left.length → ∀ i : Int, 1 ≤ i → i < countAt left right h k →
      left.getD k 0 + (i : ℚ) * h.getD k 0 ≤ right.getD k 0 - h.getD k 0 / 2 := by
    intro k hk i _ hi
    exact interior_node_lt _ _ _ (hbox k hk).2 i hi
  refine ⟨⟨(trapezoid (withTrace f) left right h left.length 0 left ([], env)).1,
    grid left right h left.length 0,
    (trapezoid (withTrace f) left right h left.length 0 left ([], env)).2.2, ?_, ?_⟩, ?_⟩
  · rw [Quadrature_eq_trapezoid _ hr.symm hh.symm hn]
    have ht := trapezoid_trace f left right h left.length 0 left ([], env) (by omega)
    simp only [List.take_zero, List.nil_append, List.map_id'] at ht
    rw [← ht]
  · intro p hp
    obtain ⟨hlen, hmem⟩ := mem_grid left right h left.length 0 p hp
    refine ⟨hlen, fun k hk => ?_⟩
    have hm := hmem k hk
    rw [Nat.zero_add, mem_nodes] at hm
    obtain ⟨hle, hpos⟩ := hbox k hk
    rcases hm with h1 | ⟨i, hi1, hi2, h2⟩ | h3
    · rw [h1]
      exact ⟨le_refl _, hle⟩
    · rw [h2]
      have hup := hint k hk i hi1 hi2
      have hi0 : (0 : ℚ) ≤ (i : ℚ) := by exact_mod_cast (by omega : (0 : Int) ≤ i)
      have hmul := mul_nonneg hi0 hpos.le
      show left.getD k 0 ≤ left.getD k 0 + (i : ℚ) * h.getD k 0
        ∧ left.getD k 0 + (i : ℚ) * h.getD k 0 ≤ right.getD k 0
      constructor <;> linarith
    · rw [h3]
      exact ⟨hle, le_refl _⟩
  · intro k hk i hi1 hi2
    have hup := hint k hk i hi1 hi2
    have hpos := (hbox k hk).2
    exact ⟨hup, by linarith⟩

/-- C18, witness: `[0,1] × [5,6]` with steps `3/10` and `2`; neither step divides the
width. -/
theorem Quadrature_points_in_box_witness :
    ∃ v pts env', Quadrature (withTrace (pureIntegrand (sumSquares : List ℚ → ℚ)))
        [0, 5] [1, 6] [3 / 10, 2] ([], ()) = .ok ((v, none), (pts, env'))
      ∧ ∀ p ∈ pts, p.length = ([0, 5] : List ℚ).length
          ∧ ∀ k, k < ([0, 5] : List ℚ).length →
            ([0, 5] : List ℚ).getD k 0 ≤ p.getD k 0 ∧ p.getD k 0 ≤ ([1, 6] : List ℚ).getD k 0 :=
  (Quadrature_points_in_box (pureIntegrand (sumSquares : List ℚ → ℚ))
    [0, 5] [1, 6] [3 / 10, 2] () rfl rfl (by decide)
    (by decide!)).1

theorem trapezoid_constant_binary64_value :
    (trapezoid (pureIntegrand (fun _ : List F64 => F64.lit (1 / 10)))
        [0] [1] [⟨1 / 4⟩] 1 0 [0] ()).1 = ⟨7205759403792793 / 72057594037927936⟩ := by
  decide!

/-- C19, counterexample: in binary64 arithmetic the constant `0.1` over `[0,1]` with
`h = 0.25` (`count = 4`, `h * count = 1 = right - left`) does not give
`0.1 * (h * count) = 0.1` but `0.1 - 2^-56`; and in exact arithmetic the constant `1` over
`[0,3] × [0,4]` with `h = (2, 3)` gives `1 *` the box volume `12` although
`h[0] * count_0 = 4` differs from the width `3`. -/
theorem Quadrature_constant_not_product :
    (countAt ([0] : List F64) [1] [⟨1 / 4⟩] 0 = 4
      ∧ (⟨1 / 4⟩ : F64) * Float64Ops.ofInt 4 = 1 - 0
      ∧ F64.lit (1 / 10) * ((⟨1 / 4⟩ : F64) * Float64Ops.ofInt 4) = F64.lit (1 / 10)
      ∧ Quadrature (pureIntegrand (fun _ : List F64 => F64.lit (1 / 10))) [0] [1] [⟨1 / 4⟩] ()
          = .ok ((⟨7205759403792793 / 72057594037927936⟩, none), ())
      ∧ (⟨7205759403792793 / 72057594037927936⟩ : F64) ≠ F64.lit (1 / 10))
    ∧ (Quadrature (pureIntegrand (fun _ : List ℚ => (1 : ℚ))) [0, 0] [3, 4] [2, 3] ()
          = .ok ((1 * ((3 - 0) * (4 - 0)), none), ())
      ∧ countAt ([0, 0] : List ℚ) [3, 4] [2, 3] 0 = 2
      ∧ (2 : ℚ) * ((max (countAt ([0, 0] : List ℚ) [3, 4] [2, 3] 0) 1 : Int) : ℚ) ≠ 3 - 0) := by
  refine ⟨⟨by decide!, by decide!, by decide!, ?_, by decide!⟩, by decide!, by decide!,
    by decide!⟩
  rw [Quadrature_eq_trapezoid _ (show ([1] : List F64).length = ([0] : List F64).length from rfl)
    (show ([⟨1 / 4⟩] : List F64).length = ([0] : List F64).length from rfl) (Nat.succ_pos 0)]
  show Except.ok ((_, none), ()) = _
  rw [show ([0] : List F64).length = 1 from rfl, trapezoid_constant_binary64_value]

/-- C19, amended: in exact arithmetic, for a constant integrand `c` and inputs of equal
length `n ≥ 1`, `Quadrature` returns `c` times the product over `k` of
`h[k] * max(count_k, 1)`; if `h[k] * max(count_k, 1) = right[k] - left[k]` in every
dimension, this is `c` times the box volume. -/
theorem Quadrature_constant (c : ℚ) (left right h : List ℚ)
    (hr : left.length = right.length) (hh : left.length = h.length)
    (hn : 1 ≤ left.length) :
    Quadrature (pureIntegrand (fun _ => c)) left right h ()
      = .ok ((c * ((List.range left.length).map
          (fun k => h.getD k 0 * ((max (countAt left right h k) 1 : Int) : ℚ))).prod, none), ())
    ∧ ((∀ k, k < left.length →
          h.getD k 0 * ((max (countAt left right h k) 1 : Int) : ℚ)
            = right.getD k 0 - left.getD k 0) →
        Quadrature (pureIntegrand (fun _ => c)) left right h ()
          = .ok ((c * ((List.range left.length).map
              (fun k => right.getD k 0 - left.getD k 0)).prod, none), ())) := by
  have hq : Quadrature (pureIntegrand (fun _ => c)) left right h ()
      = .ok ((c * ((List.range left.length).map
          (fun k => h.getD k 0 * ((max (countAt left right h k) 1 : Int) : ℚ))).prod, none),
          ()) := by
    rw [Quadrature_eq_trapezoid _ hr.symm hh.symm hn, trapezoid_pure_eq_spec,
      trapezoidSpec_const]
    simp only [Nat.zero_add]
  refine ⟨hq, fun hex => ?_⟩
  rw [hq]
  have hmap : (List.range left.length).map
        (fun k => h.getD k 0 * ((max (countAt left right h k) 1 : Int) : ℚ))
      = (List.range left.length).map (fun k => right.getD k 0 - left.getD k 0) := by
    apply List.map_congr_left
    intro k hk
    exact hex k (List.mem_range.mp hk)
  rw [hmap]

/-- C19, witness: the constant `7` over `[0,1] × [5,6]` with steps `3/10` and `2`. -/
theorem Quadrature_constant_witness :
    Quadrature (pureIntegrand (fun _ => (7 : ℚ))) [0, 5] [1, 6] [3 / 10, 2] ()
      = .ok ((7 * ((List.range ([0, 5] : List ℚ).length).map
          (fun k => ([3 / 10, 2] : List ℚ).getD k 0
            * ((max (countAt ([0, 5] : List ℚ) [1, 6] [3 / 10, 2] k) 1 : Int) : ℚ))).prod,
          none), ()) :=
  (Quadrature_constant 7 [0, 5] [1, 6] [3 / 10, 2] rfl rfl (by decide)).1

/-- C15: whenever the closure `calculate` of `Quadrature` is entered with the shared index
`k` in `0..n-1`, the buffer of length `n` agreeing with `left` from coordinate `k` on
(`entryInvariant`, which holds at the first entry from `Quadrature`), and fuel for the
remaining `n - k` levels, it returns; on return the shared index is `k - 1` and the buffer
is what it was at entry, so that `x[j] == left[j]` again for `j ≥ k` and `x[j]` is
unchanged for `j < k`.  With the entry condition asserted at every entry, the recursive
ones included, and the exit condition asserted at every return, no assertion fails:
`calculateAsserting` returns the same result. -/
theorem calculate_invariant [DecidableEq α] [Zero α] [Add α] [Sub α] [Mul α] [Div α]
    [Float64Ops α] (f : Integrand α σ) (left right h : List α)
    (hr : left.length = right.length) (hh : left.length = h.length)
    (c : Frame α σ) (fuel : Nat) (hentry : entryInvariant left c)
    (hfuel : left.length - c.k.toNat ≤ fuel) :
    (∃ v c', calculate f left right h left.length fuel c = .ok (v, c')
      ∧ calculateAsserting f left right h left.length fuel c = .ok (v, c')
      ∧ c'.k = c.k - 1 ∧ c'.x = c.x
      ∧ (∀ j : Nat, c.k ≤ j → c'.x[j]? = left[j]?)
      ∧ (∀ j : Nat, (j : Int) < c.k → c'.x[j]? = c.x[j]?))
    ∧ ∀ env : σ, entryInvariant left
        ({ k := 0, x := copy (make left.length) left, env := env } : Frame α σ) := by
  obtain ⟨ck, x, env⟩ := c
  obtain ⟨h0, h1, hx, hdrop⟩ := hentry
  simp only at h0 h1 hx hdrop hfuel
  obtain ⟨k, rfl⟩ : ∃ k : Nat, ck = (k : Int) := ⟨ck.toNat, by omega⟩
  rw [Int.toNat_ofNat] at hdrop hfuel
  have hxl := drop_eq_iff.mp hdrop
  have hkl : k < left.length := by omega
  constructor
  · refine ⟨(trapezoid f left right h (left.length - k - 1 + 1) k x env).1,
      { k := (k : Int) - 1, x := x,
        env := (trapezoid f left right h (left.length - k - 1 + 1) k x env).2 },
      calculate_ok f hr.symm hh.symm (left.length - k - 1) k x env fuel (by omega) hx hxl
        (by omega),
      calculateAsserting_ok f hr.symm hh.symm (left.length - k - 1) k x env fuel (by omega) hx
        hxl (by omega),
      rfl, rfl, ?_, fun _ _ => rfl⟩
    intro j hj
    have hj' : (k : Int) ≤ (j : Int) := hj
    exact hxl j (by omega)
  · intro env'
    rw [copy_make_self]
    exact entryInvariant_natCast (k := 0) (by omega) rfl (fun _ _ => rfl)

/-- C15, witness: the inner level of a 2-D call, entered with `x[0]` fixed to `3/10`. -/
theorem calculate_invariant_witness :
    ∃ v c', calculate (pureIntegrand (sumSquares : List ℚ → ℚ)) [0, 5] [1, 6] [3 / 10, 2]
        ([0, 5] : List ℚ).length 1 { k := 1, x := [3 / 10, 5], env := () } = .ok (v, c')
      ∧ calculateAsserting (pureIntegrand (sumSquares : List ℚ → ℚ)) [0, 5] [1, 6] [3 / 10, 2]
        ([0, 5] : List ℚ).length 1 { k := 1, x := [3 / 10, 5], env := () } = .ok (v, c')
      ∧ c'.k = ({ k := 1, x := [3 / 10, 5], env := () } : Frame ℚ Unit).k - 1
      ∧ c'.x = ({ k := 1, x := [3 / 10, 5], env := () } : Frame ℚ Unit).x
      ∧ (∀ j : Nat, ({ k := 1, x := [3 / 10, 5], env := () } : Frame ℚ Unit).k ≤ j →
          c'.x[j]? = ([0, 5] : List ℚ)[j]?)
      ∧ (∀ j : Nat, (j : Int) < ({ k := 1, x := [3 / 10, 5], env := () } : Frame ℚ Unit).k →
          c'.x[j]? = ({ k := 1, x := [3 / 10, 5], env := () } : Frame ℚ Unit).x[j]?) :=
  (calculate_invariant (pureIntegrand (sumSquares : List ℚ → ℚ)) [0, 5] [1, 6] [3 / 10, 2]
    rfl rfl { k := 1, x := [3 / 10, 5], env := () } 1 (by decide!) (by decide)).1

end Claims

end Integrate
